import Mathlib

/-!
Verification development for the preprocessor of this repository
(src/lib/preprocessor.cpp).  Strings are embedded as `List Char`
(`Str`); every function below is translated from the corresponding
C++ function in src/lib/preprocessor.cpp unless its doc comment says
`Modelled from the spec:` (used only for code of this repository that
is not under src/, namely the Tokenizer of tokenize.cpp, which the
preprocessor uses as an external collaborator).  Loops whose C++
termination argument is indirect are given an explicit fuel that is
always sufficient (each iteration consumes at least one character),
so that every definition evaluates by kernel reduction.
-/

namespace Cppcheck

/-- Strings of the C++ code are embedded as lists of characters. -/
abbrev Str := List Char

/-- Convenience: build a `Str` from a Lean string literal. -/
def chars (s : String) : Str := s.toList

/-- Character at index `i`, with the C++ `std::string::operator[]`
out-of-range behaviour of yielding the NUL character (C++11 semantics,
used by the code when it indexes one past the end). -/
def charAt (s : Str) (i : Nat) : Char := s.getD i (Char.ofNat 0)

/-- C locale `std::isspace` restricted to ASCII. -/
def isSpaceB (c : Char) : Bool := c.toNat = 32 || (9 ≤ c.toNat && c.toNat ≤ 13)

/-- C locale `std::iscntrl` restricted to ASCII. -/
def isCntrlB (c : Char) : Bool := c.toNat < 32 || c.toNat = 127

/-- C locale `std::isalpha` restricted to ASCII. -/
def isAlphaB (c : Char) : Bool :=
  (65 ≤ c.toNat && c.toNat ≤ 90) || (97 ≤ c.toNat && c.toNat ≤ 122)

/-- C locale `std::isdigit`. -/
def isDigitB (c : Char) : Bool := 48 ≤ c.toNat && c.toNat ≤ 57

/-- C locale `std::isalnum` restricted to ASCII. -/
def isAlnumB (c : Char) : Bool := isAlphaB c || isDigitB c

/-- Identifier character: `std::isalnum(c) || c == '_'`. -/
def isNameCharB (c : Char) : Bool := isAlnumB c || c = '_'

/-- Does `s` start with the pattern `p`?  The code expresses this as
`s.compare(0, p.size(), p) == 0` or as `s.find(p) == 0`. -/
def startsWithB : Str → Str → Bool
  | [], _ => true
  | _ :: _, [] => false
  | p :: ps, c :: cs => p = c && startsWithB ps cs

/-- Does `s` contain the pattern `p` as a contiguous substring
(`s.find(p) != std::string::npos`)? -/
def containsSeq (p : Str) : Str → Bool
  | [] => startsWithB p []
  | c :: cs => startsWithB p (c :: cs) || containsSeq p cs

/-- Index of the first occurrence of pattern `dn` in `s`
(`std::string::find`). -/
def findSubAux (dn : Str) : Str → Option Nat
  | [] => if dn = [] then some 0 else none
  | c :: cs => if startsWithB dn (c :: cs) then some 0 else (findSubAux dn cs).map (· + 1)

/-- `std::string::find(dn, pos)`. -/
def findSubFrom (s dn : Str) (pos : Nat) : Option Nat :=
  (findSubAux dn (s.drop pos)).map (· + pos)

/-- Lexicographic `operator<` of `std::string` (bytewise). -/
def strLt : Str → Str → Bool
  | [], [] => false
  | [], _ :: _ => true
  | _ :: _, [] => false
  | a :: as, b :: bs => if a < b then true else if b < a then false else strLt as bs

/-- Non-strict companion of `strLt`. -/
def strLe (a b : Str) : Bool := !(strLt b a)

/-- Ordered insertion used to model `std::list<std::string>::sort`. -/
def insertSorted (x : Str) : List Str → List Str
  | [] => [x]
  | y :: ys => if strLt x y then x :: y :: ys else y :: insertSorted x ys

/-- Insertion sort modelling `std::list<std::string>::sort` (stable,
non-decreasing by `operator<`). -/
def sortStrs : List Str → List Str
  | [] => []
  | x :: xs => insertSorted x (sortStrs xs)

/-- Helper of `uniqueAdj` (structural recursion). -/
def uniqueAdjAux (x : Str) : List Str → List Str
  | [] => [x]
  | y :: r => if x = y then uniqueAdjAux x r else x :: uniqueAdjAux y r

/-- `std::list::unique`: drop consecutive duplicates. -/
def uniqueAdj : List Str → List Str
  | [] => []
  | x :: xs => uniqueAdjAux x xs

/-- Raw split at a separator, keeping empty parts; the helper for the
file's static `split`. -/
def splitAllChar (sep : Char) : Str → List Str
  | [] => [[]]
  | c :: cs =>
    let r := splitAllChar sep cs
    if c = sep then [] :: r
    else (c :: r.headD []) :: r.tail

/-- The static `split` of preprocessor.cpp (lines 76-94): substrings
between separators, empty parts skipped. -/
def splitCpp (s : Str) (sep : Char) : List Str :=
  (splitAllChar sep s).filter (fun t => t ≠ [])

/-- The static `join` of preprocessor.cpp (lines 97-108): parts
concatenated, a separator inserted whenever the accumulator is
non-empty. -/
def joinStrs (l : List Str) (sep : Char) : Str :=
  l.foldl (fun s x => (if s = [] then s else s ++ [sep]) ++ x) []

/-- Lookup in an association list modelling `std::map::find`. -/
def mapFind : List (Str × Str) → Str → Option Str
  | [], _ => none
  | (k, v) :: m, key => if k = key then some v else mapFind m key

/-- `std::map` insertion (`m[k] = v`): overwrite or append. -/
def mapInsert : List (Str × Str) → Str → Str → List (Str × Str)
  | [], k, v => [(k, v)]
  | (k0, v0) :: m, k, v => if k0 = k then (k, v) :: m else (k0, v0) :: mapInsert m k v

/-- Ordered-set insertion modelling `std::set<std::string>::insert`. -/
def setInsert (x : Str) : List Str → List Str
  | [] => [x]
  | y :: ys => if strLt x y then x :: y :: ys else if x = y then y :: ys else y :: setInsert x ys

/-- Consume the longest run of characters satisfying `p`
(a scanning helper for the tokenizer model). -/
def scanWhile (p : Char → Bool) : Str → Str × Str
  | [] => ([], [])
  | c :: cs =>
    if p c then
      let t := scanWhile p cs
      (c :: t.1, t.2)
    else ([], c :: cs)

/-- Consume a string literal after its opening quote `q`, handling
backslash escapes; the closing quote is included in the token. -/
def scanStringTok (q : Char) : Str → Str × Str
  | [] => ([], [])
  | c :: cs =>
    if c = q then ([q], cs)
    else if c = '\\' then
      match cs with
      | [] => (['\\'], [])
      | e :: cs2 =>
        let t := scanStringTok q cs2
        ('\\' :: e :: t.1, t.2)
    else
      let t := scanStringTok q cs
      (c :: t.1, t.2)

/-- Fuel-measured worker of `createTokens`; every branch consumes at
least one character, so fuel equal to the length is sufficient. -/
def createTokensF : Nat → Str → List Str
  | 0, _ => []
  | _, [] => []
  | fuel + 1, c :: cs =>
    if isSpaceB c then createTokensF fuel cs
    else if isAlphaB c || c = '_' then
      let t := scanWhile isNameCharB cs
      (c :: t.1) :: createTokensF fuel t.2
    else if isDigitB c then
      let t := scanWhile isDigitB cs
      (c :: t.1) :: createTokensF fuel t.2
    else if c = '#' then
      if startsWithB (chars "#") cs then chars "##" :: createTokensF fuel cs.tail
      else
        let t := scanWhile isNameCharB cs
        ('#' :: t.1) :: createTokensF fuel t.2
    else if c = '&' then
      if startsWithB (chars "&") cs then chars "&&" :: createTokensF fuel cs.tail
      else [c] :: createTokensF fuel cs
    else if c = '|' then
      if startsWithB (chars "|") cs then chars "||" :: createTokensF fuel cs.tail
      else [c] :: createTokensF fuel cs
    else if c = '"' || c = '\'' then
      let t := scanStringTok c cs
      (c :: t.1) :: createTokensF fuel t.2
    else [c] :: createTokensF fuel cs

/-- Modelled from the spec: the Tokenizer (tokenize.cpp, not under
src/) splits a text into tokens: names (`isName`), numbers, string
and character literals, the multi-character operators `##`, `&&` and
`||` used by the preprocessor, and single special characters;
whitespace separates tokens.  This models `Tokenizer::createTokens`
as the preprocessor relies on it (spec section 6, "Tokenizer"). -/
def createTokens (s : Str) : List Str := createTokensF s.length s

/-- `Token::isName` of a token (first character alphabetic or `_`). -/
def tokIsName : Str → Bool
  | c :: _ => isAlphaB c || c = '_'
  | [] => false

/-- `%num%` of `Token::Match` (first character a digit). -/
def tokIsNum : Str → Bool
  | c :: _ => isDigitB c
  | [] => false

/-- Modelled from the spec: decimal value of a number token
(used only inside the modelled `simplifyCalculations`). -/
def tokNatVal (t : Str) : Nat := t.foldl (fun a c => a * 10 + (c.toNat - 48)) 0

/-- Modelled from the spec: print a number as a token. -/
def natToTok (n : Nat) : Str := (toString n).toList

/-- Modelled from the spec: the Tokenizer's calculation folder applied
to one binary operator over two number tokens (`simplifyCalculations`
"folds 1+2, !0, etc., to fixed point", spec section 6). -/
def evalNumOp (op a b : Str) : Option Str :=
  let x := tokNatVal a
  let y := tokNatVal b
  if op = chars "+" then some (natToTok (x + y))
  else if op = chars "-" then some (natToTok (x - y))
  else if op = chars "*" then some (natToTok (x * y))
  else if op = chars "/" then (if y = 0 then none else some (natToTok (x / y)))
  else if op = chars "&&" then some (if x ≠ 0 && y ≠ 0 then chars "1" else chars "0")
  else if op = chars "||" then some (if x ≠ 0 || y ≠ 0 then chars "1" else chars "0")
  else if op = chars "<" then some (if x < y then chars "1" else chars "0")
  else if op = chars ">" then some (if y < x then chars "1" else chars "0")
  else none

/-- Modelled from the spec: one leftmost folding step of the
calculation folder (binary operation over numbers, or redundant inner
parentheses around a number; the outermost wrapping parentheses are
kept, as the final `( 1 )` / `( 0 )` checks of `simplifyCondition`
rely on them). -/
def calcFoldStep (inner : Bool) : List Str → Option (List Str)
  | a :: op :: b :: rest =>
    if inner && (a = chars "(" && tokIsNum op && b = chars ")") then some (op :: rest)
    else
      match (if tokIsNum a && tokIsNum b then evalNumOp op a b else none) with
      | some r => some (r :: rest)
      | none => (calcFoldStep true (op :: b :: rest)).map (a :: ·)
  | _ => none

/-- Modelled from the spec: `Tokenizer::simplifyCalculations`, folding
to a fixed point (each fold shortens the list, so fuel equal to the
length is sufficient). -/
def simplifyCalculationsF : Nat → List Str → List Str
  | 0, ts => ts
  | fuel + 1, ts =>
    match calcFoldStep false ts with
    | none => ts
    | some ts2 => simplifyCalculationsF fuel ts2

/-- Modelled from the spec: `Tokenizer::simplifyCalculations`. -/
def simplifyCalculations (ts : List Str) : List Str := simplifyCalculationsF ts.length ts

/-- One leftmost replacement of `! number` as in the loop of
`Preprocessor::simplifyCondition` (pattern `! %num%`). -/
def bangFoldStep : List Str → Option (List Str)
  | a :: b :: rest =>
    if a = chars "!" && tokIsNum b then
      some ((if b = chars "0" then chars "1" else chars "0") :: rest)
    else (bangFoldStep (b :: rest)).map (a :: ·)
  | _ => none

/-- Fuel-measured form of the `while (modified)` loop at the end of
`Preprocessor::simplifyCondition`: run the calculation folder, then
replace one `! number`, and repeat until nothing changes. -/
def condCalcFixF : Nat → List Str → List Str
  | 0, ts => simplifyCalculations ts
  | fuel + 1, ts =>
    match bangFoldStep (simplifyCalculations ts) with
    | none => simplifyCalculations ts
    | some ts2 => condCalcFixF fuel ts2

/-- The `while (modified)` loop of `Preprocessor::simplifyCondition`. -/
def condCalcFix (ts : List Str) : List Str := condCalcFixF (ts.length + 1) ts

/-- Fuel-measured worker of the token-rewriting loop of
`Preprocessor::simplifyCondition` (lines 1141-1183): `defined(X)` and
`defined X` are resolved against the variable map, and bare
identifiers are substituted, replaced by `1`, or deleted.  `revPre` is
the (reversed) already-processed part of the token list;
`Token::deleteThis` copies the next token into the current one so the
iteration afterwards steps past it. -/
def svLoopF (vars : List (Str × Str)) (mtch : Bool) : Nat → List Str → List Str → List Str
  | 0, revPre, ts => revPre.reverse ++ ts
  | _, revPre, [] => revPre.reverse
  | fuel + 1, revPre, tok :: rest =>
    if tokIsName tok = false then svLoopF vars mtch fuel (tok :: revPre) rest
    else if tok = chars "defined" && (rest.getD 0 [] = chars "(") &&
            tokIsName (rest.getD 1 []) && (rest.getD 2 [] = chars ")") then
      -- Token::Match(tok, "defined ( %var% )")
      match mapFind vars (rest.getD 1 []) with
      | some _ => svLoopF vars mtch fuel (chars "1" :: revPre) (rest.drop 3)
      | none =>
        if mtch then svLoopF vars mtch fuel (chars "0" :: revPre) (rest.drop 3)
        else svLoopF vars mtch fuel (tok :: revPre) rest
    else if tok = chars "defined" && tokIsName (rest.getD 0 []) then
      -- Token::Match(tok, "defined %var%")
      match mapFind vars (rest.getD 0 []) with
      | some _ => svLoopF vars mtch fuel (chars "1" :: revPre) (rest.drop 1)
      | none =>
        if mtch then svLoopF vars mtch fuel (chars "0" :: revPre) (rest.drop 1)
        else svLoopF vars mtch fuel (tok :: revPre) rest
    else
      match mapFind vars tok with
      | none => svLoopF vars mtch fuel (tok :: revPre) rest
      | some val =>
        if val ≠ [] then svLoopF vars mtch fuel (val :: revPre) rest
        else
          -- the source's flanking test; note that the last disjunct of
          -- the second conjunct reads strAt(-1), i.e. the PREVIOUS token
          let prevOk :=
            match revPre with
            | [] => true
            | p :: _ => p = chars "||" || p = chars "&&" || p = chars "("
          let nextOk :=
            match rest with
            | [] => true
            | n :: _ =>
              n = chars "||" || n = chars "&&" ||
              (match revPre with
               | [] => false
               | p :: _ => p = chars ")")
          if prevOk && nextOk then svLoopF vars mtch fuel (chars "1" :: revPre) rest
          else
            -- tok->deleteThis(): the next token takes this position and
            -- the loop's advance then steps past it
            match rest with
            | [] => revPre.reverse
            | n :: rest2 => svLoopF vars mtch fuel (n :: revPre) rest2

/-- The token-rewriting loop of `Preprocessor::simplifyCondition`. -/
def svLoop (vars : List (Str × Str)) (mtch : Bool) (ts : List Str) : List Str :=
  svLoopF vars mtch ts.length [] ts

/-- `Preprocessor::simplifyCondition` (lines 1116-1207).  A new
condition string is returned instead of mutating the argument. -/
def Preprocessor.simplifyCondition (vars : List (Str × Str)) (condition : Str) (mtch : Bool) : Str :=
  let toks := createTokens ('(' :: (condition ++ [')']))
  if toks.getD 0 [] = chars "(" && tokIsName (toks.getD 1 []) && toks.getD 2 [] = chars ")" then
    -- Token::Match(tokens, "( %var% )")
    if (mapFind vars (toks.getD 1 [])).isSome then chars "1"
    else if mtch then chars "0"
    else condition
  else if toks.getD 0 [] = chars "(" && toks.getD 1 [] = chars "!" &&
          tokIsName (toks.getD 2 []) && toks.getD 3 [] = chars ")" then
    -- Token::Match(tokens, "( ! %var% )")
    if (mapFind vars (toks.getD 2 [])).isNone then chars "1"
    else if mtch then chars "0"
    else condition
  else
    let ts := condCalcFix (svLoop vars mtch toks)
    if (ts.getD 0 [] = chars "(" && ts.getD 1 [] = chars "1" && ts.getD 2 [] = chars ")") ||
       (ts.getD 0 [] = chars "(" && ts.getD 1 [] = chars "1" && ts.getD 2 [] = chars "||") then
      chars "1"
    else if ts.getD 0 [] = chars "(" && ts.getD 1 [] = chars "0" && ts.getD 2 [] = chars ")" then
      chars "0"
    else condition

/-- `Preprocessor::match_cfg_def` (lines 1209-1226). -/
def Preprocessor.match_cfg_def (cfg : List (Str × Str)) (def0 : Str) : Bool :=
  let d := Preprocessor.simplifyCondition cfg def0 true
  if (mapFind cfg d).isSome then true
  else if d = chars "0" then false
  else if d = chars "1" then true
  else false

/-- The space-removal loop of `Preprocessor::getdef` (lines 735-744):
a space survives only between two identifier characters. -/
def rssAux (prev : Char) : Str → Str
  | [] => []
  | c :: rest =>
    if c = ' ' then
      if isNameCharB prev && isNameCharB (charAt rest 0) then ' ' :: rssAux ' ' rest
      else rssAux prev rest
    else c :: rssAux c rest

/-- `Preprocessor::getdef` (lines 714-748).  The C++ spells the prefix
tests as `line.find(pat) != 0`, i.e. "does not start with pat". -/
def Preprocessor.getdef (line : Str) (def0 : Bool) : Str :=
  if def0 && !(startsWithB (chars "#ifdef ") line) && !(startsWithB (chars "#if ") line) &&
      !(startsWithB (chars "#elif ") line) && !(startsWithB (chars "#if defined ") line) then
    []
  else if !def0 && !(startsWithB (chars "#ifndef ") line) then []
  else
    let line1 :=
      if startsWithB (chars "#if defined ") line then line.drop 11
      else line.dropWhile (fun c => c ≠ ' ')
    rssAux (Char.ofNat 0) line1

/-- Fuel-measured worker of the configuration-string parser at the
start of `Preprocessor::getcode` (lines 1242-1272), producing the
`cfgmap` assignments in order. -/
def cfgmapParseF : Nat → Str → List (Str × Str)
  | 0, _ => []
  | fuel + 1, s =>
    let a := s.takeWhile (fun c => !(c = ';' || c = '='))
    match s.dropWhile (fun c => !(c = ';' || c = '=')) with
    | [] => [(a, [])]
    | c :: r2 =>
      if c = ';' then (a, []) :: cfgmapParseF fuel r2
      else
        match r2.dropWhile (fun c => c ≠ ';') with
        | [] => [(a, r2.takeWhile (fun c => c ≠ ';'))]
        | _ :: r4 => (a, r2.takeWhile (fun c => c ≠ ';')) :: cfgmapParseF fuel r4

/-- The configuration-string parser of `Preprocessor::getcode`. -/
def cfgmapParseAux (s : Str) : List (Str × Str) := cfgmapParseF (s.length + 1) s

/-- The `cfgmap` of `Preprocessor::getcode`: the parsed assignments
inserted into the map in order. -/
def cfgmapOf (cfg : Str) : List (Str × Str) :=
  (cfgmapParseAux cfg).foldl (fun m kv => mapInsert m kv.1 kv.2) []

/-- Fuel-measured worker of `getlineSplit` (used after at least one
line is known to exist; fuel equal to the length suffices). -/
def getlineSplitF : Nat → Str → List Str
  | 0, _ => []
  | _, [] => []
  | fuel + 1, c :: cs =>
    let a := (c :: cs).takeWhile (fun x => x ≠ '\n')
    match (c :: cs).dropWhile (fun x => x ≠ '\n') with
    | [] => [a]
    | _ :: r2 => a :: getlineSplitF fuel r2

/-- `std::getline` applied repeatedly: the lines of a text ('\n'
separated; a final fragment without newline is a line of its own). -/
def getlineSplit : Str → List Str
  | [] => []
  | c :: cs => getlineSplitF (c :: cs).length (c :: cs)

/-- Identifiers of the diagnostics the embedded code can emit. -/
inductive ErrId
  | preprocessorErrorDirective
  | syntaxError
  | noQuoteCharPair
  | preprocessorMismatchingParens
  | missingInclude
deriving DecidableEq, Repr

/-- The modelled `Settings` object: getcode reads only `userDefines`
from it (a null pointer is `Option.none` at the call sites). -/
structure PSettings where
  userDefines : Str
deriving DecidableEq, Repr

/-- Result of the line-selection loop of `Preprocessor::getcode`:
`ub` marks a `back()` call on an empty `std::list` (undefined
behaviour in the C++), `early` the `#error` return path, and `done`
the normal exit with the selected text. -/
inductive SelResult
  | ub
  | early (errs : List ErrId)
  | done (out : Str) (errs : List ErrId)
deriving DecidableEq, Repr

/-- The `#define` handling of the selection loop (lines 1317-1326):
record the define in `cfgmap`. -/
def defineUpdate (cfgmap : List (Str × Str)) (line : Str) : List (Str × Str) :=
  let after8 := line.drop 8
  let a := after8.takeWhile (fun c => !(c = ' ' || c = '('))
  match after8.dropWhile (fun c => !(c = ' ' || c = '(')) with
  | [] => mapInsert cfgmap after8 []
  | c :: v => if c = ' ' then mapInsert cfgmap a v else mapInsert cfgmap a []

/-- The conditional-directive handling of the selection loop (lines
1314-1368), updating `cfgmap` and the two boolean stacks (represented
with the top at the head).  `none` marks a `back()` access on an empty
stack (the `#elif` branch has no emptiness guard; `#else` guards only
`matched_ifdef`). -/
def directiveUpdate (cfgmap : List (Str × Str)) (matching_ifdef matched_ifdef : List Bool)
    (line : Str) : Option (List (Str × Str) × List Bool × List Bool) :=
  let def_ := Preprocessor.getdef line true
  let ndef := Preprocessor.getdef line false
  if startsWithB (chars "#define ") line then
    some (defineUpdate cfgmap line, matching_ifdef, matched_ifdef)
  else if startsWithB (chars "#elif ") line then
    match matched_ifdef with
    | [] => none
    | mb :: mtl =>
      if mb then
        match matching_ifdef with
        | [] => none
        | _ :: gtl => some (cfgmap, false :: gtl, mb :: mtl)
      else if Preprocessor.match_cfg_def cfgmap def_ then
        match matching_ifdef with
        | [] => none
        | _ :: gtl => some (cfgmap, true :: gtl, true :: mtl)
      else some (cfgmap, matching_ifdef, mb :: mtl)
  else if def_ ≠ [] then
    let b := Preprocessor.match_cfg_def cfgmap def_
    some (cfgmap, b :: matching_ifdef, b :: matched_ifdef)
  else if ndef ≠ [] then
    let b := !(Preprocessor.match_cfg_def cfgmap ndef)
    some (cfgmap, b :: matching_ifdef, b :: matched_ifdef)
  else if line = chars "#else" then
    match matched_ifdef with
    | [] => some (cfgmap, matching_ifdef, matched_ifdef)
    | mb :: _ =>
      match matching_ifdef with
      | [] => none
      | _ :: gtl => some (cfgmap, (!mb) :: gtl, matched_ifdef)
  else if startsWithB (chars "#endif") line then
    some (cfgmap, matching_ifdef.tail, matched_ifdef.tail)
  else some (cfgmap, matching_ifdef, matched_ifdef)

/-- Recomputation of `match` after a directive (lines 1370-1375):
only lines whose first character is `#` refresh it, as the AND of the
whole `matching_ifdef` stack. -/
def recomputeMatch (matching_ifdef : List Bool) (line : Str) (mtch : Bool) : Bool :=
  if startsWithB (chars "#") line then matching_ifdef.all (fun b => b) else mtch

/-- The per-line output rewriting of `Preprocessor::getcode` (lines
1389-1408), applied after the `#error` check: which lines are kept,
which are blanked. -/
def Preprocessor.getcodeLine (mtch : Bool) (line : Str) : Str :=
  if !mtch && startsWithB (chars "#define ") line then []
  else if startsWithB (chars "#file \"") line || startsWithB (chars "#endfile") line ||
          startsWithB (chars "#define ") line || startsWithB (chars "#undef") line then
    line
  else if !mtch || startsWithB (chars "#") line then []
  else line

/-- The diagnostics emitted on a matched `#error` line (lines
1380-1385): only when a settings object exists and its `userDefines`
is non-empty. -/
def errorDirectiveErrs (settings : Option PSettings) : List ErrId :=
  match settings with
  | some s => if s.userDefines ≠ [] then [ErrId.preprocessorErrorDirective] else []
  | none => []

/-- The `#pragma asm` skip (lines 1280-1312): consume lines up to
`#pragma endasm`, returning that line, the remaining lines and the
count of skipped lines; `none` when the end is not found. -/
def pragmaAsmSkip : List Str → Option (Str × List Str × Nat)
  | [] => none
  | l :: ls =>
    if startsWithB (chars "#pragma endasm") l then some (l, ls, 0)
    else (pragmaAsmSkip ls).map (fun t => (t.1, t.2.1, t.2.2 + 1))

/-- The synthetic `asm(var);` emission after `#pragma endasm ( var = value )`
(lines 1297-1307). -/
def pragmaEndasmEmit (l : Str) : Str :=
  if containsSeq (chars "=") l then
    let toks := createTokens (l.drop 15)
    -- Token::Match(tokens, "( %var% = %any% )")
    if toks.getD 0 [] = chars "(" && tokIsName (toks.getD 1 []) && toks.getD 2 [] = chars "=" &&
        toks.getD 3 [] ≠ [] && toks.getD 4 [] = chars ")" then
      chars "asm(" ++ toks.getD 1 [] ++ chars ");"
    else []
  else []

/-- The line-selection loop of `Preprocessor::getcode` (lines
1276-1411), recursing over the lines of the normalized text.  The
first argument is fuel (one unit per consumed line; the callers pass
the number of lines plus one, which is always sufficient). -/
def selLoop (settings : Option PSettings) : Nat → List (Str × Str) → List Bool → List Bool →
    Bool → List ErrId → Str → List Str → SelResult
  | _, _, _, _, _, errs, acc, [] => .done acc errs
  | 0, _, _, _, _, errs, acc, _ => .done acc errs
  | fuel + 1, cfgmap, matching_ifdef, matched_ifdef, mtch, errs, acc, line :: rest =>
    if startsWithB (chars "#pragma asm") line then
      match pragmaAsmSkip rest with
      | none => .done (acc ++ ['\n'] ++ List.replicate rest.length '\n') errs
      | some (endline, rest2, skipped) =>
        let emitted := ['\n'] ++ List.replicate skipped '\n' ++
          pragmaEndasmEmit endline ++ ['\n']
        selLoop settings fuel cfgmap matching_ifdef matched_ifdef mtch errs (acc ++ emitted) rest2
    else
      match directiveUpdate cfgmap matching_ifdef matched_ifdef line with
      | none => .ub
      | some (cfgmap2, matching2, matched2) =>
        let mtch2 := recomputeMatch matching2 line mtch
        if mtch2 && startsWithB (chars "#error") line then
          .early (errs ++ errorDirectiveErrs settings)
        else
          selLoop settings fuel cfgmap2 matching2 matched2 mtch2 errs
            (acc ++ Preprocessor.getcodeLine mtch2 line ++ ['\n']) rest

/-- The selection phase of `Preprocessor::getcode` on a filedata text
and a configuration string (everything before the final call to
`expandMacros`). -/
def Preprocessor.getcodeSelect (filedata cfg : Str) (settings : Option PSettings) : SelResult :=
  let lines := getlineSplit filedata
  selLoop settings (lines.length + 1) (cfgmapOf cfg) [] [] true [] [] lines

/-- The parenthesis-balance scan of `Preprocessor::getcfgs` (lines
825-836): the final counter (scanning stops early when it goes
negative). -/
def parenBadAux : Int → Str → Int
  | par, [] => par
  | par, c :: r =>
    if c = '(' then parenBadAux (par + 1) r
    else if c = ')' then (if par - 1 < 0 then par - 1 else parenBadAux (par - 1) r)
    else parenBadAux par r

/-- Mismatching parentheses in a condition (`par != 0` after the scan,
lines 837-853). -/
def parenBad (d : Str) : Bool := parenBadAux 0 d ≠ 0

/-- The `#define` recording of `Preprocessor::getcfgs` (lines
794-804): the first space of the body is replaced by `=`. -/
def cfgDefineInsert (defines : List Str) (line : Str) : List Str :=
  let s := line.drop 8
  if containsSeq (chars " ") s = false then setInsert s defines
  else setInsert (s.takeWhile (fun c => c ≠ ' ') ++ '=' :: (s.dropWhile (fun c => c ≠ ' ')).tail)
    defines

/-- The variable map built from in-file defines (lines 856-866): only
`name=value` entries contribute. -/
def varmapOfDefines (defines : List Str) : List (Str × Str) :=
  defines.foldl (fun m d =>
    if containsSeq (chars "=") d then
      mapInsert m (d.takeWhile (fun c => c ≠ '=')) ((d.dropWhile (fun c => c ≠ '=')).tail)
    else m) []

/-- The configuration string assembled from the condition stack
(lines 874-891): frames `0` stop the walk, frames `1` and `!` are
skipped, and a frame equal to the accumulated string is not repeated. -/
def deflistJoinAux (acc : Str) : List Str → Str
  | [] => acc
  | it :: rest =>
    if it = chars "0" then acc
    else if it = chars "1" || it = chars "!" then deflistJoinAux acc rest
    else if acc ≠ it then
      deflistJoinAux ((if acc = [] then [] else acc ++ [';']) ++ it) rest
    else deflistJoinAux acc rest

/-- State of the scanning loop of `Preprocessor::getcfgs`. -/
structure CfgScanSt where
  ret : List Str
  deflist : List Str
  ndeflist : List Str
  defines : List Str
  filelevel : Nat
  includeguard : Bool
deriving DecidableEq, Repr

/-- The scanning loop of `Preprocessor::getcfgs` (lines 771-928);
`none` is the aborting return on mismatching parentheses (the C++
clears `ret` and returns the empty list). -/
def getcfgsScan : CfgScanSt → List Str → Option (List Str × List Str)
  | st, [] => some (st.ret, st.defines)
  | st, line :: rest =>
    if startsWithB (chars "#file ") line then
      getcfgsScan { st with includeguard := true, filelevel := st.filelevel + 1 } rest
    else if line = chars "#endfile" then
      getcfgsScan { st with includeguard := false, filelevel := st.filelevel - 1 } rest
    else
      let st1 :=
        if startsWithB (chars "#define ") line then
          { st with defines := cfgDefineInsert st.defines line }
        else st
      let st2 :=
        if line ≠ [] && !(startsWithB (chars "#if") line) then
          { st1 with includeguard := false }
        else st1
      if st2.includeguard then getcfgsScan st2 rest
      else
        let defT := Preprocessor.getdef line true
        let defF := Preprocessor.getdef line false
        let fromNeg := defT = [] && defF ≠ []
        let d0 := if defT ≠ [] then defT else defF
        if d0 ≠ [] then
          if parenBad d0 then none
          else
            let d1 := Preprocessor.simplifyCondition (varmapOfDefines st2.defines) d0 false
            let deflist1 :=
              if st2.deflist ≠ [] && startsWithB (chars "#elif ") line then st2.deflist.dropLast
              else st2.deflist
            let deflist2 := deflist1 ++ [d1]
            let joined := deflistJoinAux [] deflist2
            let deflist3 := if fromNeg then deflist2.dropLast ++ [chars "!"] else deflist2
            let ndeflist3 :=
              if fromNeg then st2.ndeflist ++ [deflist2.getLastD []] else st2.ndeflist
            let ret1 := if st2.ret.contains joined then st2.ret else st2.ret ++ [joined]
            getcfgsScan { st2 with ret := ret1, deflist := deflist3, ndeflist := ndeflist3 } rest
        else if startsWithB (chars "#else") line && st2.deflist ≠ [] then
          if st2.deflist.getLastD [] = chars "!" then
            getcfgsScan { st2 with
              deflist := st2.deflist.dropLast ++ [st2.ndeflist.getLastD []],
              ndeflist := st2.ndeflist.dropLast } rest
          else
            let tempDef := if st2.deflist.getLastD [] = chars "1" then chars "0" else chars "1"
            getcfgsScan { st2 with deflist := st2.deflist.dropLast ++ [tempDef] } rest
        else if startsWithB (chars "#endif") line && st2.deflist ≠ [] then
          let nd :=
            if st2.deflist.getLastD [] = chars "!" then st2.ndeflist.dropLast else st2.ndeflist
          getcfgsScan { st2 with deflist := st2.deflist.dropLast, ndeflist := nd } rest
        else getcfgsScan st2 rest

/-- Fuel-measured worker of the token-removal loop of lines 940-959:
remove `;`-delimited occurrences of `dn` from `cfg`.  An empty `dn`
would loop forever in the C++; the fuel makes the model total. -/
def removeDefineF (dn : Str) : Nat → Str → Nat → Str
  | 0, cfg, _ => cfg
  | fuel + 1, cfg, pos =>
    match findSubFrom cfg dn pos with
    | none => cfg
    | some p =>
      if p > 0 && charAt cfg (p - 1) ≠ ';' then removeDefineF dn fuel cfg (p + 1)
      else if p + dn.length < cfg.length && charAt cfg (p + dn.length) ≠ ';' then
        removeDefineF dn fuel cfg (p + 1)
      else removeDefineF dn fuel (cfg.take p ++ cfg.drop (p + dn.length)) p

/-- Strip trailing `;` characters (lines 966-967). -/
def dropTrailingSemis (s : Str) : Str := (s.reverse.dropWhile (fun c => c = ';')).reverse

/-- Collapse `;;` runs to a single `;` (lines 969-971); `prevSemi`
remembers whether the previous kept character was a `;`. -/
def collapseSemisB (prevSemi : Bool) : Str → Str
  | [] => []
  | c :: r =>
    if c = ';' then
      if prevSemi then collapseSemisB true r else ';' :: collapseSemisB true r
    else c :: collapseSemisB false r

/-- The defined-constant removal applied to one configuration (lines
932-974): each define's name is removed as a `;`-delimited token, and
if anything changed the separators are tidied up. -/
def removeDefinedCfg (defines : List Str) (cfg0 : Str) : Str :=
  let cfg := defines.foldl (fun c dn0 =>
    let dn := dn0.takeWhile (fun ch => ch ≠ '=')
    removeDefineF dn ((c.length + 1) * (c.length + 2)) c 0) cfg0
  if cfg.length ≠ cfg0.length then
    collapseSemisB false (dropTrailingSemis (cfg.dropWhile (fun c => c = ';')))
  else cfg0

/-- The token-list walk of the `&&`-conversion (lines 1003-1025):
collect defined names until the pattern breaks. -/
def andVarListF : Nat → List Str → List Str
  | 0, _ => []
  | fuel + 1, ts =>
    match ts with
    | [] => []
    | t :: rest =>
      if t = chars "defined" && rest.getD 0 [] = chars "(" && tokIsName (rest.getD 1 []) &&
          rest.getD 2 [] = chars ")" then
        -- Token::Match(tok, "defined ( %var% )")
        let v := rest.getD 1 []
        match rest.drop 3 with
        | a :: r3 =>
          if a = chars "&&" then v :: andVarListF fuel r3 else v :: andVarListF fuel (a :: r3)
        | [] => [v]
      else if tokIsName t && rest.getD 0 [] = chars ";" then
        -- Token::Match(tok, "%var% ;")
        t :: andVarListF fuel (rest.drop 1)
      else []

/-- The configuration conversion `defined(A)&&defined(B)` to `A;B`
(lines 977-1033); the tokenization uses the spec-modelled Tokenizer. -/
def andConvertCfg (s : Str) : Str :=
  if containsSeq (chars "&&") s then
    let toks := createTokens s
    let s2 := joinStrs (sortStrs (andVarListF (toks.length + 1) toks)) ';'
    if s2 ≠ [] then s2 else s
  else s

/-- The canonical form of one configuration (lines 1036-1044): sort
the `;`-delimited tokens and rejoin them. -/
def canonicalizeCfg (s : Str) : Str := joinStrs (sortStrs (splitCpp s ';')) ';'

/-- Fuel-measured worker of the unhandled-configuration test. -/
def unhCfgF : Nat → Str → Bool
  | 0, _ => false
  | fuel + 1, s =>
    match s with
    | [] => false
    | c :: rest =>
      if c = ';' then unhCfgF fuel rest
      else if isAlphaB c || c = '_' then
        let rest1 := rest.dropWhile isNameCharB
        match rest1 with
        | '=' :: rest2 =>
          let rest3 := rest2.dropWhile isDigitB
          match rest3 with
          | ';' :: rest4 => unhCfgF fuel rest4
          | _ => true
        | _ => unhCfgF fuel rest1
      else true

/-- The unhandled-configuration test of lines 1051-1092: a `;` is
appended and the string must be a `;`-separated sequence of
identifiers with optional all-digit values. -/
def unhandledCfg (s : Str) : Bool := unhCfgF (s.length + 2) (s ++ [';'])

/-- `Preprocessor::getcfgs` (lines 752-1113). -/
def Preprocessor.getcfgs (filedata : Str) : List Str :=
  match getcfgsScan ⟨[[]], [], [], [], 0, false⟩ (getlineSplit filedata) with
  | none => []
  | some (ret0, defines) =>
    let ret1 := ret0.map (removeDefinedCfg defines)
    let ret2 := ret1.map andConvertCfg
    let ret3 := ret2.map canonicalizeCfg
    let ret4 := uniqueAdj (sortStrs ret3)
    ret4.filter (fun s => unhandledCfg s = false)

/-- Fuel-measured worker of the static `skipstring` (lines 1607-1618);
the position advances by one or two per step. -/
def skipstrAux (line : Str) (ch : Char) : Nat → Nat → Nat
  | 0, pos => pos
  | fuel + 1, pos =>
    if pos < line.length then
      if charAt line pos = ch then pos
      else if charAt line pos = '\\' then skipstrAux line ch fuel (pos + 2)
      else skipstrAux line ch fuel (pos + 1)
    else pos

/-- The static `skipstring`: `pos` points at the opening quote, the
result at the closing quote (or past the end). -/
def skipstringN (line : Str) (pos : Nat) : Nat :=
  skipstrAux line (charAt line pos) (line.length + 1) (pos + 1)

/-- Result of the static `getparams` (lines 1628-1714). -/
structure GetParamsRes where
  pos : Nat
  params : List Str
  numberOfNewlines : Nat
  endFound : Bool
deriving DecidableEq, Repr

/-- The shared bottom section of the `getparams` loop (lines
1691-1712): parameter split at top-level commas, space folding, and
character accumulation; returns the updated (par, params). -/
def gpBottom (parlevel : Int) (par : Str) (params : List Str) (c : Char) : Str × List Str :=
  if parlevel = 1 && c = ',' then ([], params ++ [par])
  else if c = ' ' then
    (if par ≠ [] && isAlnumB (par.getLastD (Char.ofNat 0)) then par ++ [' '] else par, params)
  else if parlevel ≥ 1 then (par ++ [c], params)
  else (par, params)

/-- Fuel-measured worker of the `getparams` scanning loop. -/
def gpLoop (line : Str) : Nat → Int → Str → List Str → Nat → Nat → GetParamsRes
  | 0, _, _, params, nl, pos => ⟨pos, params, nl, false⟩
  | fuel + 1, parlevel, par, params, nl, pos =>
    if pos < line.length then
      let c := charAt line pos
      if c = '(' then
        if parlevel + 1 = 1 then gpLoop line fuel (parlevel + 1) par params nl (pos + 1)
        else
          let r := gpBottom (parlevel + 1) par params c
          gpLoop line fuel (parlevel + 1) r.1 r.2 nl (pos + 1)
      else if c = ')' then
        if parlevel - 1 ≤ 0 then ⟨pos, params ++ [par], nl, true⟩
        else
          let r := gpBottom (parlevel - 1) par params c
          gpLoop line fuel (parlevel - 1) r.1 r.2 nl (pos + 1)
      else if c = '"' || c = '\'' then
        let p := pos
        let pos2 := skipstringN line pos
        if pos2 = line.length then ⟨pos2, params, nl, false⟩
        else
          gpLoop line fuel parlevel (par ++ ((line.drop p).take (pos2 + 1 - p))) params nl
            (pos2 + 1)
      else if c = '\n' then gpLoop line fuel parlevel par params (nl + 1) (pos + 1)
      else
        let r := gpBottom parlevel par params c
        gpLoop line fuel parlevel r.1 r.2 nl (pos + 1)
    else ⟨pos, params, nl, false⟩

/-- The static `getparams`: extract macro-call parameters starting at
`pos0` (the `(`, possibly preceded by one space). -/
def getparams (line : Str) (pos0 : Nat) : GetParamsRes :=
  let pos1 := if charAt line pos0 = ' ' then pos0 + 1 else pos0
  if charAt line pos1 ≠ '(' then ⟨pos1, [], 0, false⟩
  else gpLoop line (line.length + 2) 0 [] [] 0 pos1

/-- The parameter-extraction loop of the `PreprocessorMacro`
constructor (lines 1827-1841). -/
def macroParamsLoop : List Str → List Str × Bool
  | [] => ([], false)
  | t :: rest =>
    if t = chars ")" then ([], false)
    else if t = chars "." && rest.getD 0 [] = chars "." && rest.getD 1 [] = chars "." &&
        rest.getD 2 [] = chars ")" then
      -- Token::simpleMatch(tok, ". . . )")
      ([], true)
    else if tokIsName t then
      let r := macroParamsLoop rest
      (t :: r.1, r.2)
    else macroParamsLoop rest

/-- The embedded `PreprocessorMacro` record (lines 1717-1848). -/
structure PMac where
  toks : List Str
  params : List Str
  name : Str
  macroStr : Str
  variadic : Bool
  nopar : Bool
deriving DecidableEq, Repr

/-- The `PreprocessorMacro` constructor (lines 1809-1849). -/
def mkMac (m : Str) : PMac :=
  let toks := createTokens m
  let name := if tokIsName (toks.getD 0 []) then toks.getD 0 [] else []
  let afterName := m.dropWhile (fun c => !(c = ' ' || c = '('))
  if afterName.headD (Char.ofNat 0) = '(' then
    if tokIsName (toks.getD 0 []) && toks.getD 1 [] = chars "(" && tokIsName (toks.getD 2 []) then
      -- Token::Match(tokens, "%var% ( %var%")
      let r := macroParamsLoop (toks.drop 2)
      ⟨toks, r.1, name, m, r.2, false⟩
    else if toks.getD 1 [] = chars "(" && toks.getD 2 [] = chars "." && toks.getD 3 [] = chars "." &&
        toks.getD 4 [] = chars "." && toks.getD 5 [] = chars ")" && tokIsName (toks.getD 0 []) then
      -- Token::Match(tokens, "%var% ( . . . )")
      ⟨toks, [], name, m, true, false⟩
    else if tokIsName (toks.getD 0 []) && toks.getD 1 [] = chars "(" && toks.getD 2 [] = chars ")" then
      -- Token::Match(tokens, "%var% ( )")
      ⟨toks, [], name, m, false, true⟩
    else ⟨toks, [], name, m, false, false⟩
  else ⟨toks, [], name, m, false, false⟩

/-- Association-list lookup for the macro table. -/
def macFind : List (Str × PMac) → Str → Option PMac
  | [], _ => none
  | (k, v) :: m, key => if k = key then some v else macFind m key

/-- Association-list insertion for the macro table. -/
def macInsert : List (Str × PMac) → Str → PMac → List (Str × PMac)
  | [], k, v => [(k, v)]
  | (k0, v0) :: m, k, v => if k0 = k then (k, v) :: m else (k0, v0) :: macInsert m k v

/-- Association-list removal for the macro table (`macros.erase`). -/
def macErase : List (Str × PMac) → Str → List (Str × PMac)
  | [], _ => []
  | (k, v) :: m, key => if k = key then m else (k, v) :: macErase m key

/-- First index of `s` among the macro parameters (the inner `for i`
loop of lines 1960-2000 stops at the first match). -/
def paramIndexAux (s : Str) : Nat → List Str → Option Nat
  | _, [] => none
  | i, p :: ps => if p = s then some i else paramIndexAux s (i + 1) ps

/-- Stringification of a macro argument (lines 1983-1995). -/
def stringifyParam (s : Str) : Str :=
  '"' :: (s.foldr (fun c acc => (if c = '\\' || c = '"' then ['\\', c] else [c]) ++ acc) []) ++
    ['"']

/-- The variadic absorption loop (lines 1968-1975): arguments from
index `psize - 1` on are joined with commas; `optcomma` forces a
leading comma and is cleared by the first round. -/
def absorbLoop (givenparams : List Str) (psize : Nat) : Nat → Bool → Nat → Str → Str
  | 0, _, _, acc => acc
  | fuel + 1, optcomma, j, acc =>
    if j < givenparams.length then
      absorbLoop givenparams psize fuel false (j + 1)
        ((if optcomma || j + 1 > psize then acc ++ [','] else acc) ++ givenparams.getD j [])
    else acc

/-- The comma-join of all arguments used for `__VA_ARGS__`
replacement (lines 1907-1913). -/
def joinParamsComma : List Str → Str
  | [] => []
  | x :: xs => x ++ xs.foldl (fun s y => s ++ ',' :: y) []

/-- The textual `__VA_ARGS__` replacement (lines 1915-1921): the
search resumes after the inserted text. -/
def replaceVaArgsF : Nat → Str → Str → Str
  | 0, mc, _ => mc
  | fuel + 1, mc, s =>
    match findSubAux (chars "__VA_ARGS__") mc with
    | none => mc
    | some p => mc.take p ++ s ++ replaceVaArgsF fuel (mc.drop (p + 11)) s

/-- The body-rewriting loop of `PreprocessorMacro::code` (lines
1947-2015): `##` dropped, `#param` stringified, parameters replaced,
variadic positions absorbing the argument tail, a `,` before `##`
suppressed via `optcomma`, and gluing spaces inserted.  `none` is the
`return false` path ("Macro had more parameters than caller used"). -/
def bodyLoop (mac : PMac) (givenparams : List Str) : Bool → Str → List Str → Option Str
  | _, acc, [] => some acc
  | optcomma, acc, tok :: rest =>
    if tok = chars "##" then bodyLoop mac givenparams optcomma acc rest
    else
      let pr : Option Str :=
        if charAt tok 0 = '#' || tokIsName tok then
          let stringify := charAt tok 0 = '#'
          let str1 := if stringify then tok.drop 1 else tok
          match paramIndexAux str1 0 mac.params with
          | some i =>
            if mac.variadic && (i + 1 = mac.params.length ||
                (givenparams.length + 2 = mac.params.length && i + 2 = mac.params.length)) then
              some (absorbLoop givenparams mac.params.length (givenparams.length + 1) optcomma
                (mac.params.length - 1) [])
            else if i ≥ givenparams.length then none
            else if stringify then some (stringifyParam (givenparams.getD i []))
            else some (givenparams.getD i [])
          | none => some str1
        else some tok
      match pr with
      | none => none
      | some str2 =>
        if mac.variadic && tok = chars "," && rest.getD 0 [] = chars "##" then
          bodyLoop mac givenparams true acc rest
        else
          bodyLoop mac givenparams false
            (acc ++ str2 ++
              (if (tokIsName tok && tokIsName (rest.getD 0 [])) ||
                  (tokIsName tok && tokIsNum (rest.getD 0 [])) ||
                  (tokIsNum tok && tokIsName (rest.getD 0 [])) ||
                  (tok = chars ">" && rest.getD 0 [] = chars ">") then [' '] else []))
            rest

/-- Spec-side reading of the failure condition of claim C4 (as
amended): a macro-body token that names a parameter - plainly or
behind a `#` - whose index is not covered by the given argument list
and is not absorbed by the variadic rules of lines 1964-1975.  To be
compared with the `none` result of `bodyLoop`. -/
def c4OutOfRangeTok (mac : PMac) (givenparams : List Str) (tok : Str) : Bool :=
  if tok = chars "##" then false
  else if charAt tok 0 = '#' || tokIsName tok then
    match paramIndexAux (if charAt tok 0 = '#' then tok.drop 1 else tok) 0 mac.params with
    | some i =>
      if mac.variadic && (i + 1 = mac.params.length ||
          (givenparams.length + 2 = mac.params.length && i + 2 = mac.params.length)) then
        false
      else decide (i ≥ givenparams.length)
    | none => false
  else false

/-- The argument-shape scan of `expandInnerMacros` (lines 1757-1765):
the walk must consume the whole remaining token list in `name ,|)`
pairs, else the inner expansion is abandoned. -/
def innerArgScan : List Str → Option Nat
  | [] => some 0
  | [_] => none
  | v :: sep :: rest =>
    if tokIsName v && (sep = chars "," || sep = chars ")") then
      (innerArgScan rest).map (· + 1)
    else none

mutual

/-- `PreprocessorMacro::code` (lines 1888-2020): computes the
expansion text; the Bool is the C++ return value (false means the
syntax-error path).  The fuel bounds the mutual recursion through
`expandInnerMacros`, whose macro table shrinks at each level. -/
def macCode : Nat → PMac → List Str → List (Str × PMac) → Bool × Str
  | 0, _, _, _ => (true, [])
  | fuel + 1, mac, params2, macros =>
    if mac.nopar || (mac.params = [] && mac.variadic) then
      let mc0 :=
        match findSubAux (chars ")") mac.macroStr with
        | none => mac.macroStr  -- substr(1 + npos) wraps around to 0 in the C++
        | some p => mac.macroStr.drop (p + 1)
      if mc0 = [] then (true, [])
      else
        let mc2 := (mc0.dropWhile (fun c => c = ' ')).takeWhile (fun c => !(c = '\r' || c = '\n'))
        if mac.nopar then (true, mc2)
        else (true, replaceVaArgsF (mc2.length + 1) mc2 (joinParamsComma params2))
    else if mac.params = [] then
      match findSubAux (chars " ") mac.macroStr with
      | none => (true, [])
      | some p =>
        (true, (mac.macroStr.drop (p + 1)).takeWhile (fun c => !(c = '\r' || c = '\n')))
    else
      let givenparams := expandInnerMacros fuel mac params2 macros
      match mac.toks.dropWhile (fun t => t ≠ chars ")") with
      | [] => (true, [])
      | _ :: body =>
        match bodyLoop mac givenparams false [] body with
        | none => (false, [])
        | some mc => (true, mc)

/-- `PreprocessorMacro::expandInnerMacros` (lines 1745-1800). -/
def expandInnerMacros : Nat → PMac → List Str → List (Str × PMac) → List Str
  | 0, _, params1, _ => params1
  | fuel + 1, mac, params1, macros =>
    match mac.toks.dropWhile (fun t => t ≠ chars ")") with
    | [] => params1
    | _ :: after =>
      -- Token::Match(tok, ") %var% (")
      if tokIsName (after.getD 0 []) && after.getD 1 [] = chars "(" then
        let innerName := after.getD 0 []
        match innerArgScan (after.drop 2) with
        | none => params1
        | some par =>
          if par ≠ params1.length then params1
          else
            params1.map (fun param =>
              let s := innerName ++ chars "("
              if startsWithB s param && param.getLastD (Char.ofNat 0) = ')' then
                let gp := getparams param (s.length - 1)
                if gp.pos = param.length - 1 && gp.numberOfNewlines = 0 && gp.endFound &&
                    gp.params.length = params1.length then
                  match macFind macros innerName with
                  | some innerMac =>
                    (macCode fuel innerMac gp.params (macErase macros innerName)).2
                  | none => param
                else param
              else param)
      else params1

end

/-- Inner-loop return mode of the static `getlines` string handling. -/
inductive GlMode
  | cont
  | retEof
  | retGood
deriving DecidableEq, Repr

/-- The string-skipping inner loop of the static `getlines` (lines
2041-2063); `c` is the previously read character. -/
def glString (q : Char) : Nat → Str → Char → Str → GlMode × Str × Str
  | 0, line, _, input => (.retEof, line, input)
  | fuel + 1, line, c, input =>
    if c = q then (.cont, line, input)
    else if c = '\\' then
      match input with
      | [] => (.retEof, line, [])
      | e :: r =>
        match r with
        | [] => (.retEof, line ++ [e], [])
        | c2 :: r2 =>
          if c2 = '\n' && startsWithB (chars "#") (line ++ [e]) then (.retGood, line ++ [e], r2)
          else glString q fuel (line ++ [e] ++ [c2]) c2 r2
    else
      match input with
      | [] => (.retEof, line, [])
      | c2 :: r2 =>
        if c2 = '\n' && startsWithB (chars "#") line then (.retGood, line, r2)
        else glString q fuel (line ++ [c2]) c2 r2

/-- The main loop of the static `getlines` (lines 2033-2088): build
one logical line; the Bool says whether the stream hit its end (the
next call would return false). -/
def glMain : Nat → Str → Int → Str → Bool × Str × Str
  | 0, line, _, input => (true, line, input)
  | fuel + 1, line, parlevel, input =>
    match input with
    | [] => (true, line, [])
    | ch :: rest =>
      if ch = '\'' || ch = '"' then
        let r := glString ch (rest.length + 1) (line ++ [ch]) (Char.ofNat 0) rest
        match r.1 with
        | .retEof => (true, r.2.1, r.2.2)
        | .retGood => (false, r.2.1, r.2.2)
        | .cont => glMain fuel r.2.1 parlevel r.2.2
      else if ch = '(' then glMain fuel (line ++ [ch]) (parlevel + 1) rest
      else if ch = ')' then glMain fuel (line ++ [ch]) (parlevel - 1) rest
      else if ch = '\n' then
        if startsWithB (chars "#") line then (false, line, rest)
        else if rest.getD 0 (Char.ofNat 0) = '#' then (false, line ++ [ch], rest)
        else glMain fuel (line ++ [ch]) parlevel rest
      else if !(startsWithB (chars "#") line) && parlevel ≤ 0 && ch = ';' then
        (false, line ++ [';'], rest)
      else glMain fuel (line ++ [ch]) parlevel rest

/-- The successive `getlines` chunks of a text. -/
def emLinesF : Nat → Str → List Str
  | 0, _ => []
  | fuel + 1, input =>
    let r := glMain (input.length + 1) [] 0 input
    if r.1 then [r.2.1] else r.2.1 :: emLinesF fuel r.2.2

/-- All logical lines `expandMacros` reads from its input. -/
def emLines (input : Str) : List Str := emLinesF (input.length + 1) input

/-- Scan to the end of an identifier (`while (isalnum || _) ++pos`,
line 2236). -/
def scanIdentEnd (line : Str) : Nat → Nat → Nat
  | 0, pos => pos
  | fuel + 1, pos =>
    if pos < line.length && (isAlnumB (charAt line pos) || charAt line pos = '_') then
      scanIdentEnd line fuel (pos + 1)
    else pos

/-- Lookup in the recursion-prevention limits (keyed by macro name;
the C++ keys by macro pointer, and names are unique in the table). -/
def limFind : List (Str × Nat) → Str → Option Nat
  | [], _ => none
  | (k, v) :: m, key => if k = key then some v else limFind m key

/-- Insertion into the recursion-prevention limits. -/
def limInsert : List (Str × Nat) → Str → Nat → List (Str × Nat)
  | [], k, v => [(k, v)]
  | (k0, v0) :: m, k, v => if k0 = k then (k, v) :: m else (k0, v0) :: limInsert m k v

/-- The identifier-expansion inner loop of `expandMacros` (lines
2230-2344): the `while` that expands macros at the current position,
re-scanning the freshly inserted text.  Returns the updated line,
position and limits, or a diagnostic for the syntax-error path. -/
def identLoop (macros : List (Str × PMac)) : Nat → List (Str × Nat) → Str → Nat →
    Except ErrId (Str × Nat × List (Str × Nat))
  | 0, limits, line, pos => .ok (line, pos, limits)
  | fuel + 1, limits, line, pos =>
    if pos < line.length && (isAlphaB (charAt line pos) || charAt line pos = '_') then
      let pos1 := pos
      let posE := scanIdentEnd line (line.length + 1) (pos + 1)
      let id := (line.drop pos1).take (posE - pos1)
      match macFind macros id with
      | none => .ok (line, posE, limits)
      | some mac =>
        let limHit :=
          match limFind limits mac.name with
          | some lim => if lim ≤ line.length then decide (posE ≤ line.length - lim) else true
          | none => false
        if limHit then .ok (line, posE, limits)
        else if mac.params.length ≠ 0 && posE ≥ line.length then .ok (line, posE, limits)
        else
          let gp :=
            if mac.variadic || mac.nopar || mac.params.length ≠ 0 then getparams line posE
            else ⟨posE, [], 0, true⟩
          if !gp.endFound then .ok (line, posE, limits)
          else
            let params := if gp.params = [[]] then [] else gp.params
            if !mac.variadic && params.length ≠ mac.params.length then .ok (line, posE, limits)
            else
              match macCode (macros.length + 1) mac params macros with
              | (false, _) => .error ErrId.syntaxError
              | (true, tempMacro) =>
                let macrocode := List.replicate gp.numberOfNewlines '\n' ++ tempMacro
                let pos2 :=
                  if mac.variadic || mac.nopar || mac.params ≠ [] then gp.pos + 1 else gp.pos
                let limits2 := limits.filter (fun kv => !(line.length - pos1 < kv.2))
                let limits3 := limInsert limits2 mac.name (line.length - pos2)
                let line2 := line.take pos1 ++ line.drop pos2
                let mc2 :=
                  if isAlnumB (charAt line2 pos1) || charAt line2 pos1 = '_' then
                    macrocode ++ [' ']
                  else macrocode
                identLoop macros fuel limits3 (line2.take pos1 ++ mc2 ++ line2.drop pos1) pos1
    else .ok (line, pos, limits)

/-- The character scan of one logical line in `expandMacros` (lines
2187-2345): skip strings (with the `noQuoteCharPair` error path) and
run the identifier loop. -/
def scanLoop (macros : List (Str × PMac)) : Nat → List (Str × Nat) → Str → Nat →
    Except ErrId Str
  | 0, _, line, _ => .ok line
  | fuel + 1, limits, line, pos =>
    if pos < line.length then
      if charAt line pos = '"' || charAt line pos = '\'' then
        let pos2 := skipstringN line pos + 1
        if pos2 ≥ line.length then .error ErrId.noQuoteCharPair
        else scanLoop macros fuel limits line pos2
      else
        let posA :=
          if !(isAlphaB (charAt line pos) || charAt line pos = '_') then pos + 1 else pos
        match identLoop macros fuel limits line posA with
        | .error e => .error e
        | .ok (line2, pos3, limits2) => scanLoop macros fuel limits2 line2 pos3
    else .ok line

/-- The driving loop of `Preprocessor::expandMacros` over logical
lines (lines 2110-2357): maintain the macro table, pass `#file` and
`#endfile` through, blank other directives, and expand the rest.  On
an error the C++ frees the table and returns the empty string. -/
def emLoop : Nat → List (Str × PMac) → Nat → List Nat → List ErrId → Str → List Str →
    Str × List ErrId
  | 0, _, _, _, errs, acc, _ => (acc, errs)
  | _ + 1, _, _, _, errs, acc, [] => (acc, errs)
  | fuel + 1, macros, linenr, fileinfo, errs, acc, line :: rest =>
    if startsWithB (chars "#define ") line then
      let mac := mkMac (line.drop 8)
      let macros2 := if mac.name = [] then macros else macInsert macros mac.name mac
      emLoop fuel macros2 (linenr + 1) fileinfo errs (acc ++ ['\n']) rest
    else if startsWithB (chars "#undef ") line then
      emLoop fuel (macErase macros (line.drop 7)) (linenr + 1) fileinfo errs (acc ++ ['\n']) rest
    else if startsWithB (chars "#file \"") line then
      let out := line ++ ['\n']
      emLoop fuel macros (out.count '\n') (linenr :: fileinfo) errs (acc ++ out) rest
    else if line = chars "#endfile" then
      let out := line ++ ['\n']
      match fileinfo with
      | [] => emLoop fuel macros (linenr + out.count '\n') fileinfo errs (acc ++ out) rest
      | l0 :: fi => emLoop fuel macros (l0 + out.count '\n') fi errs (acc ++ out) rest
    else if startsWithB (chars "#") line then
      let out := line ++ ['\n']
      emLoop fuel macros (linenr + out.count '\n') fileinfo errs (acc ++ out) rest
    else
      match scanLoop macros (line.length * 16 + 64) [] line 0 with
      | .error e => ([], errs ++ [e])
      | .ok line2 =>
        emLoop fuel macros (linenr + line2.count '\n') fileinfo errs (acc ++ line2) rest

/-- `Preprocessor::expandMacros` (lines 2090-2366), with the list of
emitted diagnostics. -/
def Preprocessor.expandMacros (code : Str) : Str × List ErrId :=
  let ls := emLines code
  emLoop (ls.length + 1) [] 1 [] [] [] ls

/-- `Preprocessor::getcode` (lines 1229-1414): selection followed by
macro expansion; `none` marks the undefined-behaviour path of an
empty-stack `back()` call. -/
def Preprocessor.getcode (filedata cfg : Str) (settings : Option PSettings) :
    Option (Str × List ErrId) :=
  match Preprocessor.getcodeSelect filedata cfg settings with
  | .ub => none
  | .early errs => some ([], errs)
  | .done out errs =>
    let r := Preprocessor.expandMacros out
    some (r.1, errs ++ r.2)

/-- The stream conversion performed by the static `readChar` (lines
60-73): `\r` becomes `\n` and a following `\n` is consumed. -/
def readConv : Str → Str
  | [] => []
  | [c] => if c = '\r' then ['\n'] else [c]
  | c :: c2 :: r =>
    if c = '\r' then
      if c2 = '\n' then '\n' :: readConv r else '\n' :: readConv (c2 :: r)
    else c :: readConv (c2 :: r)

/-- The reading loop of `Preprocessor::read` (lines 111-195) over the
`readChar`-converted stream: whitespace folding, space skipping after
spaces and `#`, the `#if(` spacing, and backslash-newline splicing
(the non-`__GNUC__` variant, which peeks only at the very next
character; on the converted stream a `\n` head covers both `\n` and
`\r`).  Elided newlines are re-emitted after the next real one. -/
def readLoopF : Nat → Bool → Bool → Nat → Str → Str
  | 0, _, _, _, _ => []
  | _, _, _, _, [] => []
  | fuel + 1, ignoreSpace, needSpace, newlines, ch0 :: rest =>
    let ch := if ch0.toNat < 128 && ch0 ≠ '\n' && (isSpaceB ch0 || isCntrlB ch0) then ' ' else ch0
    if ch = ' ' && ignoreSpace then readLoopF fuel ignoreSpace needSpace newlines rest
    else
      let ignoreSpace2 := ch = ' ' || ch = '#' || ch = '\n'
      let pre : Str := if needSpace && (ch = '(' || ch = '!') then [' '] else []
      let needSpace2 :=
        if needSpace then
          if ch = '(' || ch = '!' then true
          else if !(isAlphaB ch) then false
          else true
        else false
      let needSpace3 := if ch = '#' then true else needSpace2
      if ch = '\\' then
        match rest with
        | '\n' :: rest2 => pre ++ readLoopF fuel ignoreSpace2 needSpace3 (newlines + 1) rest2
        | _ => pre ++ '\\' :: readLoopF fuel ignoreSpace2 needSpace3 newlines rest
      else if ch = '\n' && newlines > 0 then
        pre ++ ch :: (List.replicate newlines '\n' ++ readLoopF fuel ignoreSpace2 needSpace3 0 rest)
      else pre ++ ch :: readLoopF fuel ignoreSpace2 needSpace3 newlines rest

/-- The reading loop of `Preprocessor::read` with sufficient fuel. -/
def readLoop (ignoreSpace needSpace : Bool) (newlines : Nat) (s : Str) : Str :=
  readLoopF s.length ignoreSpace needSpace newlines s

/-- First whitespace-delimited word (`iss >> word`). -/
def firstWord (s : Str) : Str := (s.dropWhile isSpaceB).takeWhile (fun c => !(isSpaceB c))

/-- Second whitespace-delimited word. -/
def secondWord (s : Str) : Str :=
  firstWord ((s.dropWhile isSpaceB).dropWhile (fun c => !(isSpaceB c)))

/-- The string-literal copying loop of `removeComments` (lines
307-335): `\
` splices inside strings are dropped (counted), other
escapes copied; returns (emitted, rest, newline count).  The C++
reads one character past the end as NUL when the literal is
unterminated. -/
def rcString (q : Char) : Nat → Nat → Str → Str × Str × Nat
  | 0, newlines, s => ([], s, newlines)
  | fuel + 1, newlines, s =>
    let chNext := charAt s 0
    if chNext = '\\' then
      let chSeq := charAt s 1
      let s2 := s.drop 2
      let em : Str := if chSeq = '\n' then [] else ['\\', chSeq]
      let nl2 := if chSeq = '\n' then newlines + 1 else newlines
      if 1 < s.length && chNext ≠ q && chNext ≠ '\n' then
        let r := rcString q fuel nl2 s2
        (em ++ r.1, r.2.1, r.2.2)
      else (em, s2, nl2)
    else
      let s2 := s.drop 1
      if 0 < s.length && chNext ≠ q && chNext ≠ '\n' then
        let r := rcString q fuel newlines s2
        (chNext :: r.1, r.2.1, r.2.2)
      else ([chNext], s2, newlines)

/-- The block-comment skipping loop of `removeComments` (lines
289-304): `chPrev`/`ch` track the last two read characters; the
character right after the opening `/*` is skipped by the loop
structure.  Returns the unread rest and the newline count. -/
def rcBlockComment : Nat → Char → Char → Nat → Str → Str × Nat
  | 0, _, _, newlines, s => (s, newlines)
  | fuel + 1, chPrev, ch, newlines, s =>
    if chPrev = '*' && ch = '/' then (s, newlines)
    else
      match s with
      | [] => ([], newlines)
      | c2 :: s2 =>
        rcBlockComment fuel ch c2 (if c2 = '\n' then newlines + 1 else newlines) s2

/-- The raw-string delimiter scan of `removeComments` (lines 340-356);
`i2` is the absolute index (the C++ compares it against 16). -/
def rawDelimScan (acc : Str) (i2 : Nat) : Str → Str
  | [] => acc
  | c :: cs =>
    if i2 > 16 || isSpaceB c || isCntrlB c || c = ')' || c = '\\' then [' ']
    else if c = '(' then acc
    else rawDelimScan (acc ++ [c]) (i2 + 1) cs

/-- The raw-string content rewriting of `removeComments` (lines
362-386): newlines become `\n` escapes (and are counted), control and
space characters become spaces, backslashes and quotes are escaped. -/
def rawContentEmit : Str → Str × Nat
  | [] => ([], 0)
  | c :: cs =>
    let r := rawContentEmit cs
    if c = '\n' then (chars "\\n" ++ r.1, r.2 + 1)
    else if isCntrlB c || isSpaceB c then (' ' :: r.1, r.2)
    else if c = '\\' then ('\\' :: r.1, r.2)
    else if c = '"' || c = '\'' then ('\\' :: c :: r.1, r.2)
    else (c :: r.1, r.2)

/-- The main loop of `Preprocessor::removeComments` (lines 222-425)
over the remaining suffix `s`; `iAbs` is the absolute index (needed
by the raw-string delimiter bound), `newlines` the pending elided
newlines, `previous` the last emitted character, `supr` the collected
inline-suppression ids. -/
def rcLoop (inlineSupp : Bool) : Nat → Nat → Nat → Char → List Str → Str → Str × List ErrId
  | 0, _, _, _, _, _ => ([], [])
  | fuel + 1, iAbs, newlines, previous, supr, s =>
    match s with
    | [] => ([], [])
    | ch :: s1 =>
      let errsHi : List ErrId := if 128 ≤ ch.toNat then [ErrId.syntaxError] else []
      if startsWithB (chars "#error") s || startsWithB (chars "#warning") s then
        let em := if startsWithB (chars "#error") s then chars "#error" else []
        match s.dropWhile (fun c => c ≠ '\n') with
        | [] => (em, errsHi)
        | r =>
          let rec2 := rcLoop inlineSupp fuel (iAbs + (s.length - r.length)) newlines previous supr r
          (em ++ rec2.1, errsHi ++ rec2.2)
      else
        let supr2 := if ch = '\n' && supr ≠ [] then [] else supr
        if startsWithB (chars "//") s then
          match s.dropWhile (fun c => c ≠ '\n') with
          | [] => ([], errsHi)
          | _ :: r2 =>
            let comment := (s.drop 2).takeWhile (fun c => c ≠ '\n')
            let supr3 :=
              if inlineSupp && firstWord comment = chars "cppcheck-suppress" &&
                  secondWord comment ≠ [] then
                supr2 ++ [secondWord comment]
              else supr2
            let rec2 :=
              rcLoop inlineSupp fuel (iAbs + (s.length - r2.length)) newlines '\n' supr3 r2
            ('\n' :: rec2.1, errsHi ++ rec2.2)
        else if startsWithB (chars "/*") s then
          let r := rcBlockComment (s.length + 2) (Char.ofNat 0) '/' newlines (s.drop 2)
          let rec2 := rcLoop inlineSupp fuel (iAbs + (s.length - r.1.length)) r.2 previous supr2 r.1
          (rec2.1, errsHi ++ rec2.2)
        else if ch = '"' || ch = '\'' then
          let r := rcString ch (s1.length + 2) newlines s1
          let prev2 := r.1.getLastD previous
          let rec2 :=
            rcLoop inlineSupp fuel (iAbs + (s.length - r.2.1.length)) r.2.2 prev2 supr2 r.2.1
          (ch :: r.1 ++ rec2.1, errsHi ++ rec2.2)
        else if startsWithB (chars "R\"") s then
          let delim := rawDelimScan [] (iAbs + 2) (s.drop 2)
          let pat := ')' :: delim ++ ['"']
          match (if delim ≠ [' '] then findSubAux pat s else none) with
          | some pRel =>
            let contentStart := 3 + delim.length
            let content := (s.drop contentStart).take (pRel - contentStart)
            let rc := rawContentEmit content
            let em := '"' :: rc.1 ++ ['"'] ++ List.replicate rc.2 '\n'
            let r2 := s.drop (pRel + delim.length + 3)
            let rec2 :=
              rcLoop inlineSupp fuel (iAbs + (s.length - r2.length)) newlines previous supr2 r2
            (em ++ rec2.1, errsHi ++ rec2.2)
          | none =>
            let rec2 := rcLoop inlineSupp fuel (iAbs + 1) newlines 'R' supr2 s1
            ('R' :: rec2.1, errsHi ++ rec2.2)
        else
          let skipSpace := ch = ' ' && previous = ' '
          let prev2 := if skipSpace then previous else ch
          let em : Str := if skipSpace then [] else [ch]
          if ch = '\n' && newlines > 0 then
            let rec2 := rcLoop inlineSupp fuel (iAbs + 1) 0 '\n' supr2 s1
            (em ++ List.replicate newlines '\n' ++ rec2.1, errsHi ++ rec2.2)
          else
            let rec2 := rcLoop inlineSupp fuel (iAbs + 1) newlines prev2 supr2 s1
            (em ++ rec2.1, errsHi ++ rec2.2)

/-- The byte-order-mark test (lines 200-206). -/
def hasbom (s : Str) : Bool :=
  decide (3 < s.length) && charAt s 0 = Char.ofNat 0xEF && charAt s 1 = Char.ofNat 0xBB &&
    charAt s 2 = Char.ofNat 0xBF

/-- `Preprocessor::removeComments` (lines 209-428); `inlineSupp`
models `settings && settings->_inlineSuppressions`. -/
def Preprocessor.removeComments (inlineSupp : Bool) (str : Str) : Str × List ErrId :=
  if hasbom str then rcLoop inlineSupp (str.length + 1) 3 0 (Char.ofNat 0) [] (str.drop 3)
  else rcLoop inlineSupp (str.length + 1) 0 0 (Char.ofNat 0) [] str

/-- One `while (find/erase)` pass of `removeParantheses` (lines
443-455): erase the character at offset `off` of each occurrence,
resuming the search at the occurrence. -/
def rpErasePass (pat : Str) (off : Nat) : Nat → Str → Nat → Str
  | 0, line, _ => line
  | fuel + 1, line, pos =>
    match findSubFrom line pat pos with
    | none => line
    | some p => rpErasePass pat off fuel (line.take (p + off) ++ line.drop (p + off + 1)) p

/-- `find_first_of("()", pos)`. -/
def findFirstOfParen (line : Str) (pos : Nat) : Option Nat :=
  ((line.drop pos).findIdx? (fun c => c = '(' || c = ')')).map (· + pos)

/-- The inner-parenthesis removal loop of `removeParantheses` (lines
457-468): `((` followed by a closing `)` before any other
parenthesis loses one pair. -/
def rpInnerParens : Nat → Str → Nat → Str
  | 0, line, _ => line
  | fuel + 1, line, pos =>
    match findSubFrom line (chars "((") pos with
    | none => line
    | some p =>
      let pos1 := p + 1
      match findFirstOfParen line (pos1 + 1) with
      | some q =>
        if charAt line q = ')' then
          let l2 := line.take q ++ line.drop (q + 1)
          rpInnerParens fuel (l2.take pos1 ++ l2.drop (pos1 + 1)) pos1
        else rpInnerParens fuel line pos1
      | none => rpInnerParens fuel line pos1

/-- The outer-parenthesis strip scan of `removeParantheses` (lines
470-493): if the parenthesis opened at `#if(` closes exactly at the
last character, the `(` becomes a space and the final `)` is erased. -/
def rpOuterScanF : Nat → Str → Int → Nat → Str
  | 0, line, _, _ => line
  | fuel + 1, line, ind, i =>
    if i < line.length then
      if charAt line i = '(' then rpOuterScanF fuel line (ind + 1) (i + 1)
      else if charAt line i = ')' then
        if ind - 1 = 0 then
          if i = line.length - 1 then
            let fp := (findSubAux (chars "(") line).getD 0
            (line.take fp ++ [' '] ++ line.drop (fp + 1)).take (line.length - 1)
          else line
        else rpOuterScanF fuel line (ind - 1) (i + 1)
      else rpOuterScanF fuel line ind (i + 1)
    else line

/-- The outer-parenthesis strip of `removeParantheses`. -/
def rpOuterStrip (line : Str) : Str :=
  if (startsWithB (chars "#if(") line || startsWithB (chars "#elif(") line) &&
      line.getLastD (Char.ofNat 0) = ')' then
    rpOuterScanF (line.length + 1) line 0 0
  else line

/-- The per-line transformation of `Preprocessor::removeParantheses`
(lines 441-499), applied to `#if`/`#elif` lines. -/
def rpLine (line : Str) : Str :=
  if startsWithB (chars "#if") line || startsWithB (chars "#elif") line then
    let l1 := rpErasePass (chars " (") 0 (line.length + 1) line 0
    let l2 := rpErasePass (chars "( ") 1 (l1.length + 1) l1 0
    let l3 := rpErasePass (chars " )") 0 (l2.length + 1) l2 0
    let l4 := rpErasePass (chars ") ") 1 (l3.length + 1) l3 0
    let l5 := rpInnerParens (l4.length * 2 + 2) l4 0
    let l6 := rpOuterStrip l5
    if startsWithB (chars "#if(") l6 then l6.take 3 ++ [' '] ++ l6.drop 3
    else if startsWithB (chars "#elif(") l6 then l6.take 5 ++ [' '] ++ l6.drop 5
    else l6
  else line

/-- `Preprocessor::removeParantheses` (lines 431-504). -/
def Preprocessor.removeParantheses (str : Str) : Str :=
  if !(containsSeq (chars "\n#if") str) && !(startsWithB (chars "#if") str) then str
  else (getlineSplit str).foldl (fun acc l => acc ++ rpLine l ++ ['\n']) []

/-- `Preprocessor::read` (lines 111-198): the `readChar` loop followed
by `removeComments` and `removeParantheses`; `inlineSupp` models the
settings flag used by `removeComments`. -/
def Preprocessor.read (istr : Str) (inlineSupp : Bool) : Str × List ErrId :=
  let rc := Preprocessor.removeComments inlineSupp (readLoop true false 0 (readConv istr))
  (Preprocessor.removeParantheses rc.1, rc.2)

/-- Spec-side reading for claim C8: the line-ending count of the raw
input, where `\n`, a lone `\r` and a `\r\n` pair each count as one. -/
def lineEndings : Str → Nat
  | [] => 0
  | [c] => if c = '\r' || c = '\n' then 1 else 0
  | c :: c2 :: r =>
    if c = '\r' then
      if c2 = '\n' then 1 + lineEndings r else 1 + lineEndings (c2 :: r)
    else if c = '\n' then 1 + lineEndings (c2 :: r)
    else lineEndings (c2 :: r)

/-- Spec-side reading for claim C5: the `;`-delimited tokens of a
configuration string, each reduced to its name part (a bare name, or
the name before the first `=`). -/
def cfgTokenNames (cfg : Str) : List Str :=
  (splitCpp cfg ';').map (fun t => t.takeWhile (fun c => c ≠ '='))

/-- Spec-side reading for claim C1 (as amended): `#file "`, `#endfile`
and `#undef` lines always survive, `#define ` lines survive exactly in
matching regions, every other `#` line is blanked, and other lines
survive exactly in matching regions. -/
def c1LineRule (mtch : Bool) (line : Str) : Str :=
  if startsWithB (chars "#file \"") line then line
  else if startsWithB (chars "#endfile") line then line
  else if startsWithB (chars "#undef") line then line
  else if startsWithB (chars "#define ") line then (if mtch then line else [])
  else if startsWithB (chars "#") line then []
  else if mtch then line else []

/-- An identifier: an alphabetic or underscore start followed by
identifier characters (such a string is one `%var%` token). -/
def isIdentB : Str → Bool
  | [] => false
  | c :: cs => (isAlphaB c || c = '_') && cs.all isNameCharB

/-- The character set excluded by the restricted newline-preservation
statement of claim C8 (as amended): backslash (splices), slash
(comments), quotes and `R` (string literals), `#` (directive rewriting
and `#error` handling), and non-ASCII bytes. -/
def plainChar (c : Char) : Bool :=
  !(c = '\\' || c = '/' || c = '"' || c = '\'' || c = 'R' || c = '#') && c.toNat < 128

/-- Prefix tests as existence of a rest. -/
theorem startsWithB_ex (p l : Str) : startsWithB p l = true ↔ ∃ r, l = p ++ r := by
  induction p generalizing l with
  | nil => simp [startsWithB]
  | cons a p ih =>
    cases l with
    | nil => simp [startsWithB]
    | cons c cs =>
      simp only [startsWithB, Bool.and_eq_true, decide_eq_true_eq, ih, List.cons_append,
        List.cons.injEq]
      constructor
      · rintro ⟨rfl, r, rfl⟩; exact ⟨r, rfl, rfl⟩
      · rintro ⟨r, rfl, rfl⟩; exact ⟨rfl, r, rfl⟩

/-- Claim C1 (counterexample): with an undefined `A`, the `#define X 1`
line inside `#ifdef A` ... `#endif` is blanked by the selection phase of
`getcode`, so the define does NOT survive into the output. -/
theorem c1_nonmatching_define_blanked_ce :
    Preprocessor.getcodeSelect (chars "#ifdef A\n#define X 1\n#endif\n") (chars "") none =
      SelResult.done (chars "\n\n\n") [] ∧
    containsSeq (chars "#define X 1") (chars "\n\n\n") = false := by decide

/-- Claim C1 (as amended): the per-line rewriting of `getcode` keeps
`#file "` / `#endfile` / `#undef` lines unconditionally, keeps
`#define ` lines exactly in matching regions, blanks every other `#`
line, and keeps a non-directive line exactly in matching regions. -/
theorem c1_line_rewriting (mtch : Bool) (line : Str) :
    Preprocessor.getcodeLine mtch line = c1LineRule mtch line := by
  unfold Preprocessor.getcodeLine c1LineRule
  cases hd : startsWithB (chars "#define ") line with
  | true =>
    obtain ⟨r, rfl⟩ := (startsWithB_ex _ _).mp hd
    cases mtch <;> rfl
  | false =>
    cases hf : startsWithB (chars "#file \"") line with
    | true =>
      obtain ⟨r, rfl⟩ := (startsWithB_ex _ _).mp hf
      cases mtch <;> rfl
    | false =>
      cases he : startsWithB (chars "#endfile") line with
      | true =>
        obtain ⟨r, rfl⟩ := (startsWithB_ex _ _).mp he
        cases mtch <;> rfl
      | false =>
        cases hu : startsWithB (chars "#undef") line with
        | true =>
          obtain ⟨r, rfl⟩ := (startsWithB_ex _ _).mp hu
          cases mtch <;> rfl
        | false =>
          cases hh : startsWithB (chars "#") line <;> cases mtch <;>
            simp [hd, hf, he, hu, hh]

/-- Claim C3 (code bug): in `simplifyCondition`, a defined-empty
variable `A` flanked by `&&` and `)` is DELETED from the condition
(the `strAt(-1)` / `")"` comparison typo makes the right-parenthesis
flank qualify), while the same variable flanked by `(` and `&&` is
substituted; and on the driving example the condition is returned
unsimplified. -/
theorem c3_flank_typo_eval :
    svLoop [(chars "A", [])] false (createTokens (chars "(1&&A)")) =
      [chars "(", chars "1", chars "&&", chars ")"] ∧
    svLoop [(chars "A", [])] false (createTokens (chars "(A&&1)")) =
      [chars "(", chars "1", chars "&&", chars "1", chars ")"] ∧
    Preprocessor.simplifyCondition [(chars "A", [])] (chars "1&&A") false =
      chars "1&&A" := by decide

/-- Claim C4 (counterexample): a non-variadic macro invoked with fewer
arguments than parameters is silently skipped: `expandMacros` keeps
the call text and reports no diagnostic, instead of returning an empty
string with a syntax error. -/
theorem c4_nonvariadic_skip_ce :
    Preprocessor.expandMacros (chars "#define F(a,b) a\nF(1)\n") = (chars "\nF(1)\n", []) ∧
    chars "\nF(1)\n" ≠ [] := by decide

theorem bodyLoop_none_iff (mac : PMac) (givenparams : List Str) :
    ∀ (body : List Str) (optcomma : Bool) (acc : Str),
      bodyLoop mac givenparams optcomma acc body = none ↔
        ∃ tok ∈ body, c4OutOfRangeTok mac givenparams tok = true := by
  intro body
  induction body with
  | nil => intro optcomma acc; simp [bodyLoop]
  | cons tok rest ih =>
    intro optcomma acc
    simp only [bodyLoop]
    simp only [List.mem_cons, or_and_right, exists_or, exists_eq_left]
    by_cases h1 : tok = chars "##"
    · rw [if_pos h1, ih]
      have hp : c4OutOfRangeTok mac givenparams tok = false := by
        simp [c4OutOfRangeTok, h1]
      simp [hp]
    · rw [if_neg h1]
      split
      next x heq =>
        repeat' split at heq
        all_goals
          first
          | (simp at heq
             done)
          | (rename_i hcond xo i hpi hvar hge
             have hp : c4OutOfRangeTok mac givenparams tok = true := by
               simp only [c4OutOfRangeTok]
               rw [if_neg h1, if_pos hcond, hpi]
               show (if mac.variadic && (i + 1 = mac.params.length ||
                   (givenparams.length + 2 = mac.params.length && i + 2 = mac.params.length)) then
                 false else decide (i ≥ givenparams.length)) = true
               rw [if_neg hvar]
               exact decide_eq_true hge
             simp [hp])
      next x val heq =>
        have hp : c4OutOfRangeTok mac givenparams tok = false := by
          repeat' split at heq
          all_goals simp only [c4OutOfRangeTok, if_neg h1]
          all_goals simp_all [-List.drop_one]
        repeat' split
        all_goals rw [ih]
        all_goals simp [hp]

/-- Claim C4 (as amended): the failing path of `PreprocessorMacro::code`
(the `return false` of line 2004, which makes `expandMacros` report a
`syntaxError` and return the empty string) is taken exactly when the
macro body contains a plain or `#`-stringified occurrence of a named
parameter whose index is not covered by the given argument list and is
not absorbed by the variadic rules; an argument-count mismatch alone is
silent, as the three evaluations illustrate: a body using the
uncovered parameter `a` of `M(a,b,c,...)` under `M()` yields the
syntax error and empty output, while a body using only the absorbing
last parameter `b` of `M(a,b,...)` under `M(1)`, or no parameter at
all under `M()`, expands with no diagnostic and non-empty text. -/
theorem c4_body_out_of_range :
    (∀ (mac : PMac) (givenparams : List Str) (optcomma : Bool) (acc : Str) (body : List Str),
      bodyLoop mac givenparams optcomma acc body = none ↔
        ∃ tok ∈ body, c4OutOfRangeTok mac givenparams tok = true) ∧
    Preprocessor.expandMacros (chars "#define M(a,b,c,...) a\nM()\n") =
      ([], [ErrId.syntaxError]) ∧
    Preprocessor.expandMacros (chars "#define M(a,b,...) b\nM(1)\n") = (chars "\n\n", []) ∧
    Preprocessor.expandMacros (chars "#define M(a,b,c,...) x\nM()\n") = (chars "\nx\n", []) :=
  ⟨fun mac givenparams optcomma acc body => bodyLoop_none_iff mac givenparams body optcomma acc,
    by decide, by decide, by decide⟩

/-- Claim C5 (counterexample): with configuration string `0`, the
`cfgmap` gains the key `0`, and `match_cfg_def` then reports ANY
identifier as matched: `B` is not a token of the configuration `0`,
yet the match succeeds. -/
theorem c5_zero_token_ce :
    Preprocessor.match_cfg_def (cfgmapOf (chars "0")) (chars "B") = true ∧
    ¬ chars "B" ∈ cfgTokenNames (chars "0") := by decide

/-- Claim C7 (code bug): for `#define LOG(fmt, ...)` the named
parameter list is non-empty, so `__VA_ARGS__` is never registered as a
parameter; expansion leaves the literal text `__VA_ARGS__` in the
output (and drops the comma before it via `##`), both for an empty and
for a non-empty variadic tail. -/
theorem c7_va_args_eval :
    Preprocessor.expandMacros
        (chars "#define LOG(fmt, ...) printf(fmt, ##__VA_ARGS__)\nLOG(\"x\")\n") =
      (chars "\nprintf(\"x\"__VA_ARGS__)\n", []) ∧
    Preprocessor.expandMacros
        (chars "#define LOG(fmt, ...) printf(fmt, ##__VA_ARGS__)\nLOG(\"x\", 1)\n") =
      (chars "\nprintf(\"x\",1__VA_ARGS__)\n", []) := by decide

/-- Claim C8 (counterexample): `read` on `#if A` (no trailing newline)
produces one `\n` though the input has no line ending, and `read` on
`a\/*x*/\nb` produces a backslash-newline pair (the comment between
the backslash and the newline is removed first), contradicting the
unconditional newline-count and no-splice parts of the claim. -/
theorem c8_newline_count_ce :
    ((Preprocessor.read (chars "#if A") false).1.count '\n' = 1 ∧
      lineEndings (chars "#if A") = 0) ∧
    containsSeq (chars "\\\n") ((Preprocessor.read (chars "a\\/*x*/\nb") false).1) = true := by
  decide

/-- Claim C10 (code bug): a `#elif` line with no enclosing conditional
makes `getcode` call `back()` on the empty `matched_ifdef` list, which
is undefined behaviour; the embedding returns the `ub` marker. -/
theorem c10_elif_empty_stack_eval :
    Preprocessor.getcodeSelect (chars "#elif A\nx\n") (chars "") none = SelResult.ub ∧
    Preprocessor.getcode (chars "#elif A\nx\n") (chars "") none = none := by decide


/-- Claim C9: on any line beginning `#error` reached with every entry
of `matching_ifdef` true, the selection loop returns early (the output
so far is discarded), and the `preprocessorErrorDirective` diagnostic
is attached exactly when a settings object with a non-empty
`userDefines` string is present. -/
theorem c9_error_directive_early (settings : Option PSettings) (fuel : Nat)
    (cfgmap : List (Str × Str)) (matching matched : List Bool) (mtch : Bool)
    (errs : List ErrId) (acc : Str) (r : Str) (rest : List Str)
    (hm : List.all matching (fun b => b) = true) :
    selLoop settings (fuel + 1) cfgmap matching matched mtch errs acc
        ((chars "#error" ++ r) :: rest) =
      SelResult.early (errs ++ errorDirectiveErrs settings) ∧
    (errorDirectiveErrs settings = [ErrId.preprocessorErrorDirective] ↔
      ∃ s, settings = some s ∧ s.userDefines ≠ []) := by
  constructor
  · show (if (List.all matching (fun b => b) &&
          startsWithB (chars "#error") (chars "#error" ++ r)) = true then
        SelResult.early (errs ++ errorDirectiveErrs settings)
      else
        selLoop settings fuel cfgmap matching matched (List.all matching (fun b => b)) errs
          (acc ++ Preprocessor.getcodeLine (List.all matching (fun b => b))
            (chars "#error" ++ r) ++ ['\n']) rest) =
      SelResult.early (errs ++ errorDirectiveErrs settings)
    rw [hm]
    rfl
  · cases settings with
    | none => simp [errorDirectiveErrs]
    | some s =>
      by_cases h : s.userDefines = [] <;> simp [errorDirectiveErrs, h]

/-- Witness for claim C9 at a concrete input. -/
theorem c9_error_directive_early_witness :
    List.all ([] : List Bool) (fun b => b) = true ∧
    selLoop (some ⟨chars "D"⟩) (0 + 1) [] [] [] true [] []
        ((chars "#error" ++ chars " x") :: []) =
      SelResult.early ([] ++ errorDirectiveErrs (some ⟨chars "D"⟩)) :=
  ⟨by decide,
    (c9_error_directive_early (some ⟨chars "D"⟩) 0 [] [] [] true [] [] (chars " x") []
      (by decide)).1⟩


set_option maxHeartbeats 4000000 in
/-- The scanning loop of getcfgs preserves membership of the empty
configuration in `ret` (the initial state holds it), whenever the scan
does not abort. -/
theorem getcfgsScan_mem : ∀ (lines : List Str) (st : CfgScanSt), [] ∈ st.ret →
    ∀ p, getcfgsScan st lines = some p → ([] : Str) ∈ p.1 := by
  intro lines
  induction lines with
  | nil =>
    intro st h p heq
    rw [getcfgsScan] at heq
    cases heq
    exact h
  | cons line rest ih =>
    intro st h p heq
    rw [getcfgsScan] at heq
    split at heq
    · refine ih _ ?_ _ heq
      exact h
    · split at heq
      · refine ih _ ?_ _ heq
        exact h
      · dsimp only at heq
        repeat' split at heq
        all_goals first
          | exact Option.noConfusion heq
          | (refine ih _ ?_ _ heq
             try repeat' split
             first
               | exact h
               | exact List.mem_append_left _ h)

theorem mem_insertSorted_iff (a x : Str) (l : List Str) :
    a ∈ insertSorted x l ↔ a = x ∨ a ∈ l := by
  induction l with
  | nil => simp [insertSorted]
  | cons y ys ih =>
    simp only [insertSorted]
    split
    · simp [List.mem_cons]
    · simp only [List.mem_cons, ih]
      try tauto

theorem mem_sortStrs_iff (a : Str) (l : List Str) : a ∈ sortStrs l ↔ a ∈ l := by
  induction l with
  | nil => simp [sortStrs]
  | cons x xs ih =>
    simp only [sortStrs, mem_insertSorted_iff, ih, List.mem_cons]

theorem mem_uniqueAdjAux_iff (a x : Str) (l : List Str) :
    a ∈ uniqueAdjAux x l ↔ a = x ∨ a ∈ l := by
  induction l generalizing x with
  | nil => simp [uniqueAdjAux]
  | cons y ys ih =>
    simp only [uniqueAdjAux]
    split
    · rename_i hxy
      subst hxy
      simp only [ih, List.mem_cons]
      try tauto
    · simp only [List.mem_cons, ih]
      try tauto

theorem mem_uniqueAdj_iff (a : Str) (l : List Str) : a ∈ uniqueAdj l ↔ a ∈ l := by
  cases l with
  | nil => simp [uniqueAdj]
  | cons x xs => simp [uniqueAdj, mem_uniqueAdjAux_iff]

theorem removeDefineF_nil (dn : Str) : ∀ (fuel pos : Nat), removeDefineF dn fuel [] pos = [] := by
  intro fuel
  induction fuel with
  | zero => intro pos; rfl
  | succ n ih =>
    intro pos
    rw [removeDefineF]
    split
    · rfl
    · split
      · exact ih _
      · split
        · exact ih _
        · simp only [List.take_nil, List.drop_nil, List.nil_append]
          exact ih _

theorem foldl_removeDefine_nil (defines : List Str) :
    List.foldl (fun c dn0 =>
      removeDefineF (dn0.takeWhile (fun ch => ch ≠ '='))
        ((c.length + 1) * (c.length + 2)) c 0) [] defines = [] := by
  induction defines with
  | nil => rfl
  | cons d ds ih =>
    simp only [List.foldl_cons]
    rw [removeDefineF_nil]
    exact ih

theorem removeDefinedCfg_nil (defines : List Str) : removeDefinedCfg defines [] = [] := by
  simp only [removeDefinedCfg, foldl_removeDefine_nil]
  rfl

/-- Claim C2 (counterexample): a source whose `#if` line has
mismatching parentheses makes `getcfgs` return the empty LIST (no
configuration at all), not a list holding the empty configuration. -/
theorem c2_paren_mismatch_ce :
    Preprocessor.getcfgs (chars "#if (\n") = [] ∧
    ¬ ([] : Str) ∈ Preprocessor.getcfgs (chars "#if (\n") := by decide

/-- Claim C2 (as amended): for every input, `getcfgs` either returns
the empty list (the mismatching-parentheses abort) or a list holding
the default (empty) configuration. -/
theorem c2_paren_abort_membership (filedata : Str) :
    Preprocessor.getcfgs filedata = [] ∨ ([] : Str) ∈ Preprocessor.getcfgs filedata := by
  unfold Preprocessor.getcfgs
  cases hscan : getcfgsScan ⟨[[]], [], [], [], 0, false⟩ (getlineSplit filedata) with
  | none => left; rfl
  | some p =>
    right
    obtain ⟨ret0, defines⟩ := p
    have h0 : ([] : Str) ∈ ret0 := getcfgsScan_mem _ _ (by simp) _ hscan
    have h1 := List.mem_map_of_mem (removeDefinedCfg defines) h0
    rw [removeDefinedCfg_nil] at h1
    have h2 := List.mem_map_of_mem andConvertCfg h1
    rw [show andConvertCfg [] = [] from rfl] at h2
    have h3 := List.mem_map_of_mem canonicalizeCfg h2
    rw [show canonicalizeCfg [] = [] from rfl] at h3
    have h4 := (mem_uniqueAdj_iff _ _).mpr ((mem_sortStrs_iff _ _).mpr h3)
    exact List.mem_filter.mpr ⟨h4, by decide⟩



theorem strLt_irrefl : ∀ a : Str, strLt a a = false := by
  intro a
  induction a with
  | nil => rfl
  | cons c cs ih => simp [strLt, lt_self_iff_false, ih]

theorem strLt_trans : ∀ (a b c : Str), strLt a b = true → strLt b c = true → strLt a c = true := by
  intro a
  induction a with
  | nil =>
    intro b c hab hbc
    cases b with
    | nil => exact absurd hab (by simp [strLt])
    | cons b0 bs =>
      cases c with
      | nil => exact absurd hbc (by simp [strLt])
      | cons c0 cs => rfl
  | cons a0 as ih =>
    intro b c hab hbc
    cases b with
    | nil => exact absurd hab (by simp [strLt])
    | cons b0 bs =>
      cases c with
      | nil => exact absurd hbc (by simp [strLt])
      | cons c0 cs =>
        simp only [strLt] at hab hbc ⊢
        rcases lt_trichotomy a0 b0 with h1 | h1 | h1 <;>
          rcases lt_trichotomy b0 c0 with h2 | h2 | h2
        · simp [lt_trans h1 h2]
        · subst h2; simp [h1]
        · simp [lt_asymm h2, h2] at hbc
        · subst h1; simp [h2]
        · subst h1; subst h2
          simp only [lt_self_iff_false, if_false] at hab hbc ⊢
          exact ih _ _ hab hbc
        · subst h1; simp [lt_asymm h2, h2] at hbc
        · simp [lt_asymm h1, h1] at hab
        · simp [lt_asymm h1, h1] at hab
        · simp [lt_asymm h1, h1] at hab

theorem strLt_asymm (a b : Str) (h : strLt a b = true) : strLt b a = false := by
  by_contra hc
  have h2 : strLt b a = true := by revert hc; cases strLt b a <;> simp
  have h3 := strLt_trans a b a h h2
  rw [strLt_irrefl] at h3
  exact Bool.noConfusion h3

theorem strLt_total_ne : ∀ (a b : Str), a ≠ b → strLt a b = true ∨ strLt b a = true := by
  intro a
  induction a with
  | nil =>
    intro b hne
    cases b with
    | nil => exact absurd rfl hne
    | cons b0 bs => exact Or.inl rfl
  | cons a0 as ih =>
    intro b hne
    cases b with
    | nil => exact Or.inr rfl
    | cons b0 bs =>
      rcases lt_trichotomy a0 b0 with h | h | h
      · exact Or.inl (by simp [strLt, h])
      · subst h
        have hne2 : as ≠ bs := by
          intro he; exact hne (by rw [he])
        rcases ih bs hne2 with h2 | h2
        · exact Or.inl (by simp [strLt, lt_self_iff_false, h2])
        · exact Or.inr (by simp [strLt, lt_self_iff_false, h2])
      · exact Or.inr (by simp [strLt, h])

theorem strLe_of_lt (a b : Str) (h : strLt a b = true) : strLe a b = true := by
  unfold strLe
  rw [strLt_asymm a b h]
  rfl

theorem strLe_of_not_lt (a b : Str) (h : strLt b a = false) : strLe a b = true := by
  unfold strLe
  rw [h]
  rfl

theorem strLt_of_le_ne (a b : Str) (hle : strLe a b = true) (hne : a ≠ b) :
    strLt a b = true := by
  rcases strLt_total_ne a b hne with h | h
  · exact h
  · unfold strLe at hle
    rw [h] at hle
    exact Bool.noConfusion hle

theorem chain_le_insertSorted (x : Str) :
    ∀ l, List.Chain' (fun a b => strLe a b = true) l →
      List.Chain' (fun a b => strLe a b = true) (insertSorted x l) := by
  intro l
  induction l with
  | nil => intro _; simp [insertSorted]
  | cons y ys ih =>
    intro h
    simp only [insertSorted]
    split
    · rename_i hlt
      exact List.chain'_cons.mpr ⟨strLe_of_lt _ _ hlt, h⟩
    · rename_i hnlt
      have hnlt2 : strLt x y = false := by
        revert hnlt; cases strLt x y <;> simp
      have hyx : strLe y x = true := strLe_of_not_lt y x hnlt2
      have htl := ih (List.Chain'.tail h)
      refine (List.chain'_cons'.mpr ⟨?_, htl⟩)
      intro z hz
      cases ys with
      | nil =>
        simp [insertSorted] at hz
        subst hz
        exact hyx
      | cons w ws =>
        simp only [insertSorted] at hz
        split at hz
        · simp at hz
          subst hz
          exact hyx
        · simp at hz
          subst hz
          exact (List.chain'_cons.mp h).1

theorem chain_le_sortStrs : ∀ l, List.Chain' (fun a b => strLe a b = true) (sortStrs l) := by
  intro l
  induction l with
  | nil => simp [sortStrs]
  | cons x xs ih => exact chain_le_insertSorted x _ ih

theorem head_uniqueAdjAux : ∀ (l : List Str) (x : Str), (uniqueAdjAux x l).head? = some x := by
  intro l
  induction l with
  | nil => intro x; rfl
  | cons y ys ih =>
    intro x
    simp only [uniqueAdjAux]
    split
    · rename_i hxy
      subst hxy
      exact ih x
    · rfl

theorem chain_lt_uniqueAdjAux : ∀ (l : List Str) (x : Str),
    List.Chain' (fun a b => strLe a b = true) (x :: l) →
    List.Chain' (fun a b => strLt a b = true) (uniqueAdjAux x l) := by
  intro l
  induction l with
  | nil => intro x _; simp [uniqueAdjAux]
  | cons y ys ih =>
    intro x h
    have hxy : strLe x y = true := (List.chain'_cons.mp h).1
    have hyr : List.Chain' (fun a b => strLe a b = true) (y :: ys) := (List.chain'_cons.mp h).2
    simp only [uniqueAdjAux]
    split
    · rename_i hxyeq
      subst hxyeq
      exact ih x hyr
    · rename_i hne
      refine List.chain'_cons'.mpr ⟨?_, ih y hyr⟩
      intro z hz
      rw [head_uniqueAdjAux] at hz
      cases hz
      exact strLt_of_le_ne x y hxy hne

theorem chain_lt_uniqueAdj : ∀ l, List.Chain' (fun a b => strLe a b = true) l →
    List.Chain' (fun a b => strLt a b = true) (uniqueAdj l) := by
  intro l h
  cases l with
  | nil => simp [uniqueAdj]
  | cons x xs => exact chain_lt_uniqueAdjAux xs x h

theorem pairwise_lt_of_chain (l : List Str)
    (h : List.Chain' (fun a b => strLt a b = true) l) :
    List.Pairwise (fun a b => strLt a b = true) l := by
  letI : IsTrans Str (fun a b => strLt a b = true) := ⟨fun a b c => strLt_trans a b c⟩
  exact List.chain'_iff_pairwise.mp h



theorem splitAllChar_ne_nil (sep : Char) : ∀ s : Str, splitAllChar sep s ≠ [] := by
  intro s
  cases s with
  | nil => simp [splitAllChar]
  | cons c cs =>
    simp only [splitAllChar]
    split <;> simp

theorem mem_splitAllChar_sep_free (sep : Char) :
    ∀ (s t : Str), t ∈ splitAllChar sep s → ∀ c ∈ t, c ≠ sep := by
  intro s
  induction s with
  | nil =>
    intro t ht
    simp [splitAllChar] at ht
    subst ht
    simp
  | cons c cs ih =>
    intro t ht
    simp only [splitAllChar] at ht
    split at ht
    · rcases List.mem_cons.mp ht with h | h
      · subst h; simp
      · exact ih t h
    · rename_i hcsep
      cases hr : splitAllChar sep cs with
      | nil => exact absurd hr (splitAllChar_ne_nil sep cs)
      | cons h0 r2 =>
        rw [hr] at ht
        rcases List.mem_cons.mp ht with h | h
        · subst h
          intro d hd
          rcases List.mem_cons.mp hd with hd | hd
          · subst hd; exact hcsep
          · simp only [List.headD_cons] at hd
            exact ih h0 (hr ▸ List.mem_cons_self h0 r2) d hd
        · simp only [List.tail_cons] at h
          exact ih t (hr ▸ List.mem_cons_of_mem h0 h)

theorem splitAll_append_sep (sep : Char) :
    ∀ (t rest : Str), (∀ c ∈ t, c ≠ sep) →
      splitAllChar sep (t ++ sep :: rest) = t :: splitAllChar sep rest := by
  intro t
  induction t with
  | nil =>
    intro rest _
    simp [splitAllChar]
  | cons c cs ih =>
    intro rest hfree
    have hc : c ≠ sep := hfree c (List.mem_cons_self c cs)
    simp only [List.cons_append, splitAllChar, List.append_eq]
    rw [ih rest (fun d hd => hfree d (List.mem_cons_of_mem c hd))]
    simp [hc]

theorem splitAll_sep_free_eq (sep : Char) :
    ∀ t : Str, (∀ c ∈ t, c ≠ sep) → splitAllChar sep t = [t] := by
  intro t
  induction t with
  | nil => intro _; rfl
  | cons c cs ih =>
    intro hfree
    have hc : c ≠ sep := hfree c (List.mem_cons_self c cs)
    simp only [splitAllChar]
    rw [ih (fun d hd => hfree d (List.mem_cons_of_mem c hd))]
    simp [hc]

theorem joinStrs_foldl_acc (sep : Char) :
    ∀ (ts : List Str) (s t : Str), s ≠ [] → t ≠ [] →
      List.foldl (fun acc x => (if acc = [] then acc else acc ++ [sep]) ++ x) (s ++ t) ts =
      s ++ List.foldl (fun acc x => (if acc = [] then acc else acc ++ [sep]) ++ x) t ts := by
  intro ts
  induction ts with
  | nil => intro s t _ _; rfl
  | cons u us ih =>
    intro s t hs ht
    simp only [List.foldl_cons]
    have hst : s ++ t ≠ [] := by
      intro he
      exact ht (List.append_eq_nil.mp he).2
    rw [if_neg hst, if_neg ht]
    have : s ++ t ++ [sep] ++ u = s ++ (t ++ [sep] ++ u) := by
      simp [List.append_assoc]
    rw [this]
    refine ih s (t ++ [sep] ++ u) hs ?_
    simp

theorem joinStrs_cons (sep : Char) (t : Str) (us : List Str) :
    joinStrs (t :: us) sep =
      List.foldl (fun acc x => (if acc = [] then acc else acc ++ [sep]) ++ x) t us := by
  show List.foldl _ ((if ([] : Str) = [] then ([] : Str) else [] ++ [sep]) ++ t) us = _
  rw [if_pos rfl]
  rw [List.nil_append]

theorem joinStrs_cons_cons (sep : Char) (t u : Str) (us : List Str)
    (ht : t ≠ []) (hu : u ≠ []) :
    joinStrs (t :: u :: us) sep = t ++ sep :: joinStrs (u :: us) sep := by
  rw [joinStrs_cons]
  simp only [List.foldl_cons]
  rw [if_neg ht]
  rw [joinStrs_foldl_acc sep us (t ++ [sep]) u (by simp) hu]
  rw [joinStrs_cons]
  simp [List.append_assoc]

theorem split_join (sep : Char) :
    ∀ ts : List Str, (∀ t ∈ ts, t ≠ [] ∧ ∀ c ∈ t, c ≠ sep) → ts ≠ [] →
      splitAllChar sep (joinStrs ts sep) = ts := by
  intro ts
  induction ts with
  | nil => intro _ h; exact absurd rfl h
  | cons t us ih =>
    intro hprops _
    have hts := hprops t (List.mem_cons_self t us)
    cases us with
    | nil =>
      have : joinStrs [t] sep = t := by
        show ([] : Str) ++ t = t
        simp
      rw [this]
      exact splitAll_sep_free_eq sep t hts.2
    | cons u us2 =>
      have hus := hprops u (List.mem_cons_of_mem t (List.mem_cons_self u us2))
      rw [joinStrs_cons_cons sep t u us2 hts.1 hus.1]
      rw [splitAll_append_sep sep t _ hts.2]
      rw [ih (fun x hx => hprops x (List.mem_cons_of_mem t hx)) (by simp)]



theorem canonicalizeCfg_props (x : Str) :
    canonicalizeCfg x = [] ∨
    ((∀ t ∈ splitAllChar ';' (canonicalizeCfg x), t ≠ []) ∧
      List.Chain' (fun a b => strLe a b = true) (splitAllChar ';' (canonicalizeCfg x))) := by
  have hparts : ∀ t ∈ sortStrs (splitCpp x ';'), t ≠ [] ∧ ∀ c ∈ t, c ≠ ';' := by
    intro t ht
    have ht2 := (mem_sortStrs_iff t _).mp ht
    have ht3 := List.mem_filter.mp ht2
    refine ⟨by simpa using ht3.2, mem_splitAllChar_sep_free ';' x t ht3.1⟩
  have hchain : List.Chain' (fun a b => strLe a b = true) (sortStrs (splitCpp x ';')) :=
    chain_le_sortStrs _
  unfold canonicalizeCfg
  cases hts : sortStrs (splitCpp x ';') with
  | nil => exact Or.inl rfl
  | cons t0 ts2 =>
    right
    rw [split_join ';' (t0 :: ts2) (hts ▸ hparts) (by simp)]
    exact ⟨fun t ht => ((hts ▸ hparts) t ht).1, hts ▸ hchain⟩

/-- Claim C6: the configuration list of `getcfgs` is strictly sorted
by `operator<` (hence duplicate-free), and each configuration is
either empty or splits at `;` into non-empty, `;`-free tokens in
non-decreasing order (so there are no empty tokens and no repeated
separators). -/
theorem c6_getcfgs_canonical (d : Str) :
    List.Pairwise (fun a b => strLt a b = true) (Preprocessor.getcfgs d) ∧
    (Preprocessor.getcfgs d).Nodup ∧
    ∀ c ∈ Preprocessor.getcfgs d,
      c = [] ∨ ((∀ t ∈ splitAllChar ';' c, t ≠ []) ∧
        List.Chain' (fun a b => strLe a b = true) (splitAllChar ';' c)) := by
  unfold Preprocessor.getcfgs
  cases hscan : getcfgsScan ⟨[[]], [], [], [], 0, false⟩ (getlineSplit d) with
  | none => simp
  | some p =>
    obtain ⟨ret0, defines⟩ := p
    dsimp only
    have hpw : List.Pairwise (fun a b => strLt a b = true)
        (uniqueAdj (sortStrs (((ret0.map (removeDefinedCfg defines)).map
          andConvertCfg).map canonicalizeCfg))) :=
      pairwise_lt_of_chain _ (chain_lt_uniqueAdj _ (chain_le_sortStrs _))
    refine ⟨hpw.sublist (List.filter_sublist _), ?_, ?_⟩
    · refine (hpw.sublist (List.filter_sublist _)).imp ?_
      intro a b hab heq
      subst heq
      rw [strLt_irrefl] at hab
      exact Bool.noConfusion hab
    · intro c hc
      have hc2 := (List.mem_filter.mp hc).1
      have hc3 := (mem_sortStrs_iff c _).mp ((mem_uniqueAdj_iff c _).mp hc2)
      obtain ⟨y, _, hcy⟩ := List.mem_map.mp hc3
      rw [← hcy]
      exact canonicalizeCfg_props y

/-- Witness for claim C6 at a concrete input. -/
theorem c6_getcfgs_canonical_witness :
    List.Pairwise (fun a b => strLt a b = true)
      (Preprocessor.getcfgs (chars "#ifdef A\nx\n#endif\n")) ∧
    (chars "A" = [] ∨ ((∀ t ∈ splitAllChar ';' (chars "A"), t ≠ []) ∧
      List.Chain' (fun a b => strLe a b = true) (splitAllChar ';' (chars "A")))) :=
  ⟨(c6_getcfgs_canonical (chars "#ifdef A\nx\n#endif\n")).1,
   (c6_getcfgs_canonical (chars "#ifdef A\nx\n#endif\n")).2.2 (chars "A") (by decide)⟩



theorem scanWhile_all_stop (p : Char → Bool) :
    ∀ (xs : Str) (y : Char) (r : Str), (∀ c ∈ xs, p c = true) → p y = false →
      scanWhile p (xs ++ y :: r) = (xs, y :: r) := by
  intro xs
  induction xs with
  | nil =>
    intro y r _ hy
    simp [scanWhile, hy]
  | cons c cs ih =>
    intro y r hall hy
    have hc : p c = true := hall c (List.mem_cons_self c cs)
    simp only [List.cons_append, scanWhile, hc, if_true, List.append_eq]
    rw [ih y r (fun d hd => hall d (List.mem_cons_of_mem c hd)) hy]

theorem createTokensF_nil : ∀ fuel, createTokensF fuel [] = [] := by
  intro fuel
  cases fuel <;> rfl

theorem isAlphaB_not_space (c : Char) (h : (isAlphaB c || decide (c = '_')) = true) :
    isSpaceB c = false := by
  rcases Bool.or_eq_true_iff.mp h with h2 | h2
  · simp only [isAlphaB, Bool.or_eq_true_iff, Bool.and_eq_true, decide_eq_true_eq] at h2
    simp only [isSpaceB, Bool.or_eq_false_iff, Bool.and_eq_false_iff,
      decide_eq_false_iff_not]
    omega
  · have : c = '_' := of_decide_eq_true h2
    subst this
    decide

theorem tokenize_ident (X : Str) (h : isIdentB X = true) :
    createTokens ('(' :: (X ++ [')'])) = [chars "(", X, chars ")"] := by
  cases X with
  | nil => exact absurd h (by decide)
  | cons x0 xs =>
    have hparts : (isAlphaB x0 || decide (x0 = '_')) = true ∧ xs.all isNameCharB = true := by
      simpa [isIdentB, Bool.and_eq_true] using h
    have halpha : (isAlphaB x0 || decide (x0 = '_')) = true := hparts.1
    have hnames : ∀ c ∈ xs, isNameCharB c = true := by
      intro c hc
      exact List.all_eq_true.mp hparts.2 c hc
    have hspace : isSpaceB x0 = false := isAlphaB_not_space x0 halpha
    unfold createTokens
    rw [show ('(' :: ((x0 :: xs) ++ [')'])).length = xs.length + 3 from by simp]
    have h1 : createTokensF (xs.length + 3) ('(' :: ((x0 :: xs) ++ [')'])) =
        chars "(" :: createTokensF (xs.length + 2) ((x0 :: xs) ++ [')']) := rfl
    rw [h1]
    have h2 : createTokensF (xs.length + 2) ((x0 :: xs) ++ [')']) =
        (x0 :: xs) :: createTokensF (xs.length + 1) [')'] := by
      simp only [List.cons_append, createTokensF, hspace, Bool.false_eq_true, if_false, halpha,
        if_true, List.append_eq]
      rw [scanWhile_all_stop isNameCharB xs ')' [] hnames (by decide)]
      rfl
    rw [h2]
    have h3 : createTokensF (xs.length + 1) [')'] = [chars ")"] := by
      have : createTokensF (xs.length + 1) [')'] = chars ")" :: createTokensF xs.length [] := rfl
      rw [this, createTokensF_nil]
    rw [h3]



theorem simplifyCondition_ident (vars : List (Str × Str)) (X : Str) (h : isIdentB X = true) :
    Preprocessor.simplifyCondition vars X true =
      (if (mapFind vars X).isSome then chars "1" else chars "0") := by
  have hname : tokIsName X = true := by
    cases X with
    | nil => exact absurd h (by decide)
    | cons x0 xs =>
      have hparts : (isAlphaB x0 || decide (x0 = '_')) = true ∧ xs.all isNameCharB = true := by
        simpa [isIdentB, Bool.and_eq_true] using h
      simpa [tokIsName] using hparts.1
  unfold Preprocessor.simplifyCondition
  rw [tokenize_ident X h]
  simp only [List.getD_cons_zero, List.getD_cons_succ]
  rw [if_pos]
  · split
    · rfl
    · simp
  · simp [hname]

theorem match_cfg_def_ident (m : List (Str × Str)) (X : Str) (hX : isIdentB X = true)
    (h0 : mapFind m (chars "0") = none) :
    Preprocessor.match_cfg_def m X = (mapFind m X).isSome := by
  unfold Preprocessor.match_cfg_def
  rw [simplifyCondition_ident m X hX]
  cases hfind : mapFind m X with
  | none =>
    simp only [hfind, Option.isSome_none, Bool.false_eq_true, if_false]
    rw [h0]
    simp
  | some v =>
    simp only [hfind, Option.isSome_some, if_true]
    cases mapFind m (chars "1") <;> simp <;> decide



theorem mapFind_mapInsert (m : List (Str × Str)) (a v k : Str) :
    (mapFind (mapInsert m a v) k).isSome = true ↔
      k = a ∨ (mapFind m k).isSome = true := by
  induction m with
  | nil =>
    simp only [mapInsert, mapFind]
    by_cases h : a = k
    · subst h; simp
    · simp [h, eq_comm]
  | cons kv m ih =>
    obtain ⟨k0, v0⟩ := kv
    simp only [mapInsert]
    split
    · rename_i hk0a
      subst hk0a
      simp only [mapFind]
      by_cases h : k0 = k
      · subst h; simp
      · rw [if_neg h, if_neg h]
        have h2 : ¬ k = k0 := fun he => h he.symm
        simp [h2]
    · rename_i hk0a
      simp only [mapFind]
      by_cases h : k0 = k
      · subst h; simp
      · simp only [h, if_false, ih]

theorem mapFind_foldl_insert (l : List (Str × Str)) :
    ∀ (m : List (Str × Str)) (k : Str),
      (mapFind (List.foldl (fun m kv => mapInsert m kv.1 kv.2) m l) k).isSome = true ↔
        (mapFind m k).isSome = true ∨ k ∈ l.map Prod.fst := by
  induction l with
  | nil => intro m k; simp
  | cons kv l ih =>
    intro m k
    simp only [List.foldl_cons, List.map_cons, List.mem_cons]
    rw [ih]
    rw [mapFind_mapInsert]
    tauto

theorem takeWhile_all (q : Char → Bool) :
    ∀ t : Str, (∀ c ∈ t, q c = true) → t.takeWhile q = t := by
  intro t
  induction t with
  | nil => intro _; rfl
  | cons c cs ih =>
    intro hall
    simp only [List.takeWhile_cons, hall c (List.mem_cons_self c cs)]
    rw [ih (fun d hd => hall d (List.mem_cons_of_mem c hd))]
    simp

theorem takeWhile_append_stop (q : Char → Bool) :
    ∀ (t : Str) (y : Char) (r : Str), (∀ c ∈ t, q c = true) → q y = false →
      (t ++ y :: r).takeWhile q = t := by
  intro t
  induction t with
  | nil =>
    intro y r _ hy
    simp [List.takeWhile_cons, hy]
  | cons c cs ih =>
    intro y r hall hy
    simp only [List.cons_append, List.takeWhile_cons, hall c (List.mem_cons_self c cs)]
    rw [ih y r (fun d hd => hall d (List.mem_cons_of_mem c hd)) hy]
    simp

theorem dropWhile_head_false (q : Char → Bool) :
    ∀ (t : Str) (w : Char) (r : Str), t.dropWhile q = w :: r → q w = false := by
  intro t
  induction t with
  | nil => intro w r h; exact absurd h (by simp)
  | cons c cs ih =>
    intro w r h
    rw [List.dropWhile_cons] at h
    split at h
    · exact ih w r h
    · rename_i hq
      cases h
      revert hq
      cases q c <;> simp

theorem dropWhile_all_imp (q : Char → Bool) :
    ∀ t : Str, t.dropWhile q = [] → ∀ c ∈ t, q c = true := by
  intro t
  induction t with
  | nil => intro _ c hc; exact absurd hc (by simp)
  | cons c0 cs ih =>
    intro h c hc
    rw [List.dropWhile_cons] at h
    split at h
    · rename_i hq
      rcases List.mem_cons.mp hc with rfl | hc2
      · exact hq
      · exact ih h c hc2
    · exact absurd h (by simp)



theorem pchar_true_split (c : Char) (h : (!(decide (c = ';') || decide (c = '='))) = true) :
    c ≠ ';' ∧ c ≠ '=' := by
  simpa using h

theorem pchar_false_split (c : Char) (h : (!(decide (c = ';') || decide (c = '='))) = false) :
    c = ';' ∨ c = '=' := by
  have h2 : ¬c = ';' → c = '=' := by simpa using h
  tauto

theorem cfgmapParseF_keys : ∀ (fuel : Nat) (s : Str), s.length < fuel →
    (cfgmapParseF fuel s).map Prod.fst =
      (splitAllChar ';' s).map (fun t => t.takeWhile (fun c => c ≠ '=')) := by
  intro fuel
  induction fuel with
  | zero => intro s h; exact absurd h (Nat.not_lt_zero _)
  | succ fuel ih =>
    intro s hlen
    rw [cfgmapParseF]
    have hsplit := List.takeWhile_append_dropWhile
      (p := fun c => !(c = ';' || c = '=')) (l := s)
    cases hdrop : s.dropWhile (fun c => !(c = ';' || c = '=')) with
    | nil =>
      have hall := dropWhile_all_imp _ s hdrop
      have hfree : ∀ c ∈ s, c ≠ ';' ∧ c ≠ '=' := by
        intro c hc
        exact pchar_true_split c (hall c hc)
      dsimp only
      rw [takeWhile_all (fun c => !(c = ';' || c = '=')) s hall]
      rw [splitAll_sep_free_eq ';' s (fun c hc => (hfree c hc).1)]
      simp only [List.map_cons, List.map_nil]
      rw [takeWhile_all (fun c => decide (c ≠ '=')) s
        (fun c hc => by simpa using (hfree c hc).2)]
    | cons w r2 =>
      have hw : w = ';' ∨ w = '=' := by
        have h2 := dropWhile_head_false _ s w r2 hdrop
        exact pchar_false_split w h2
      rw [hdrop] at hsplit
      have hlens := congrArg List.length hsplit
      simp only [List.length_append, List.length_cons] at hlens
      have htakefree : ∀ c ∈ s.takeWhile (fun c => !(c = ';' || c = '=')),
          c ≠ ';' ∧ c ≠ '=' := by
        intro c hc
        have h2 := List.mem_takeWhile_imp hc
        exact pchar_true_split c h2
      rcases hw with hw | hw
      · subst hw
        dsimp only
        rw [if_pos rfl]
        conv_rhs => rw [← hsplit]
        rw [splitAll_append_sep ';' _ r2 (fun c hc => (htakefree c hc).1)]
        simp only [List.map_cons]
        rw [ih r2 (by omega)]
        rw [takeWhile_all (fun c => decide (c ≠ '=')) _
          (fun c hc => by simpa using (htakefree c hc).2)]
      · subst hw
        dsimp only
        rw [if_neg (by decide)]
        cases hdrop2 : r2.dropWhile (fun c => c ≠ ';') with
        | nil =>
          dsimp only
          have hall2 := dropWhile_all_imp _ r2 hdrop2
          have hfree2 : ∀ c ∈ r2, c ≠ ';' := by
            intro c hc
            simpa using hall2 c hc
          conv_rhs => rw [← hsplit]
          have hsfree : ∀ c ∈ s.takeWhile (fun c => !(c = ';' || c = '=')) ++ '=' :: r2,
              c ≠ ';' := by
            intro c hc
            rcases List.mem_append.mp hc with hc | hc
            · exact (htakefree c hc).1
            · rcases List.mem_cons.mp hc with rfl | hc
              · decide
              · exact hfree2 c hc
          rw [splitAll_sep_free_eq ';' _ hsfree]
          simp only [List.map_cons, List.map_nil]
          rw [takeWhile_append_stop (fun c => decide (c ≠ '=')) _ '=' r2
            (fun c hc => by simpa using (htakefree c hc).2) (by decide)]
        | cons w2 r4 =>
          dsimp only
          have hw2 : w2 = ';' := by
            have h2 := dropWhile_head_false _ r2 w2 r4 hdrop2
            simpa using h2
          subst hw2
          have hsplit2 := List.takeWhile_append_dropWhile
            (p := fun c => decide (c ≠ ';')) (l := r2)
          rw [hdrop2] at hsplit2
          have hlens2 := congrArg List.length hsplit2
          simp only [List.length_append, List.length_cons] at hlens2
          have htake2free : ∀ c ∈ r2.takeWhile (fun c => c ≠ ';'), c ≠ ';' := by
            intro c hc
            have h2 := List.mem_takeWhile_imp hc
            simpa using h2
          conv_rhs => rw [← hsplit, ← hsplit2]
          have hassoc : s.takeWhile (fun c => !(c = ';' || c = '=')) ++
              '=' :: (r2.takeWhile (fun c => c ≠ ';') ++ ';' :: r4) =
              (s.takeWhile (fun c => !(c = ';' || c = '=')) ++
                '=' :: r2.takeWhile (fun c => c ≠ ';')) ++ ';' :: r4 := by
            simp [List.append_assoc]
          rw [hassoc]
          have hpfxfree : ∀ c ∈ s.takeWhile (fun c => !(c = ';' || c = '=')) ++
              '=' :: r2.takeWhile (fun c => c ≠ ';'), c ≠ ';' := by
            intro c hc
            rcases List.mem_append.mp hc with hc | hc
            · exact (htakefree c hc).1
            · rcases List.mem_cons.mp hc with rfl | hc
              · decide
              · exact htake2free c hc
          rw [splitAll_append_sep ';' _ r4 hpfxfree]
          simp only [List.map_cons]
          rw [ih r4 (by omega)]
          rw [takeWhile_append_stop (fun c => decide (c ≠ '=')) _ '=' _
            (fun c hc => by simpa using (htakefree c hc).2) (by decide)]



theorem mapFind_cfgmapOf (cfg k : Str) (hk : k ≠ []) :
    (mapFind (cfgmapOf cfg) k).isSome = true ↔ k ∈ cfgTokenNames cfg := by
  unfold cfgmapOf
  rw [mapFind_foldl_insert]
  have hkeys := cfgmapParseF_keys (cfg.length + 1) cfg (by omega)
  rw [show cfgmapParseAux cfg = cfgmapParseF (cfg.length + 1) cfg from rfl]
  rw [hkeys]
  simp only [mapFind, Option.isSome_none, Bool.false_eq_true, false_or]
  unfold cfgTokenNames splitCpp
  constructor
  · intro h
    obtain ⟨part, hp, hnk⟩ := List.mem_map.mp h
    have hpne : part ≠ [] := by
      intro he
      subst he
      simp at hnk
      exact hk hnk
    exact List.mem_map.mpr ⟨part, List.mem_filter.mpr ⟨hp, by simpa using hpne⟩, hnk⟩
  · intro h
    obtain ⟨part, hp, hnk⟩ := List.mem_map.mp h
    exact List.mem_map.mpr ⟨part, (List.mem_filter.mp hp).1, hnk⟩

/-- Claim C5 (as amended): for every configuration string without a
`0`-named token and every identifier `X`, `match_cfg_def` over the
parsed `cfgmap` reports a match exactly when `X` is the name of one of
the `;`-delimited tokens of the configuration. -/
theorem c5_match_cfg_def_tokens (cfg X : Str) (hX : isIdentB X = true)
    (h0 : ¬ chars "0" ∈ cfgTokenNames cfg) :
    (Preprocessor.match_cfg_def (cfgmapOf cfg) X = true ↔ X ∈ cfgTokenNames cfg) := by
  have h0find : mapFind (cfgmapOf cfg) (chars "0") = none := by
    cases hf : mapFind (cfgmapOf cfg) (chars "0") with
    | none => rfl
    | some v =>
      exact absurd ((mapFind_cfgmapOf cfg (chars "0") (by decide)).mp (by rw [hf]; rfl)) h0
  have hXne : X ≠ [] := by
    intro he
    subst he
    exact absurd hX (by decide)
  rw [match_cfg_def_ident _ X hX h0find]
  exact mapFind_cfgmapOf cfg X hXne

/-- Witness for claim C5 at a concrete input. -/
theorem c5_match_cfg_def_tokens_witness :
    isIdentB (chars "B") = true ∧
    (¬ chars "0" ∈ cfgTokenNames (chars "A;B=1")) ∧
    (Preprocessor.match_cfg_def (cfgmapOf (chars "A;B=1")) (chars "B") = true ↔
      chars "B" ∈ cfgTokenNames (chars "A;B=1")) :=
  ⟨by decide, by decide,
    c5_match_cfg_def_tokens (chars "A;B=1") (chars "B") (by decide) (by decide)⟩



theorem readConv_count : ∀ raw : Str, (readConv raw).count '\n' = lineEndings raw := by
  intro raw
  induction raw using readConv.induct with
  | case1 => rfl
  | case2 => rfl
  | case3 c h =>
    by_cases h2 : c = '\n'
    · subst h2; rfl
    · simp [readConv, lineEndings, h, h2, List.count_cons]
  | case4 r ih =>
    simp [readConv, lineEndings, List.count_cons, ih]
    omega
  | case5 c2 r h ih =>
    simp [readConv, lineEndings, h, List.count_cons, ih]
    omega
  | case6 c c2 r h ih =>
    by_cases h2 : c = '\n'
    · subst h2
      simp [readConv, lineEndings, h, List.count_cons, ih]
      omega
    · simp [readConv, lineEndings, h, h2, List.count_cons, ih]

theorem readConv_mem : ∀ (raw : Str) (c : Char), c ∈ readConv raw → c = '\n' ∨ c ∈ raw := by
  intro raw
  induction raw using readConv.induct with
  | case1 => intro c hc; exact absurd hc (by simp [readConv])
  | case2 =>
    intro c hc
    simp only [readConv, if_pos rfl] at hc
    simp at hc
    exact Or.inl hc
  | case3 c0 h =>
    intro c hc
    simp only [readConv, if_neg h] at hc
    simp at hc
    exact Or.inr (by simp [hc])
  | case4 r ih =>
    intro c hc
    simp only [readConv, if_pos rfl] at hc
    rcases List.mem_cons.mp hc with rfl | hc
    · exact Or.inl rfl
    · rcases ih c hc with h | h
      · exact Or.inl h
      · exact Or.inr (by simp [h])
  | case5 c2 r h ih =>
    intro c hc
    simp only [readConv, if_pos rfl, if_neg h] at hc
    rcases List.mem_cons.mp hc with rfl | hc
    · exact Or.inl rfl
    · rcases ih c hc with h2 | h2
      · exact Or.inl h2
      · exact Or.inr (by simp [List.mem_cons.mp h2])
  | case6 c0 c2 r h ih =>
    intro c hc
    simp only [readConv, if_neg h] at hc
    rcases List.mem_cons.mp hc with rfl | hc
    · exact Or.inr (List.mem_cons_self _ _)
    · rcases ih c hc with h2 | h2
      · exact Or.inl h2
      · exact Or.inr (by simp [List.mem_cons.mp h2])

theorem containsSeq_mem (p : Str) : ∀ l : Str, containsSeq p l = true → ∀ a ∈ p, a ∈ l := by
  intro l
  induction l with
  | nil =>
    intro h a ha
    cases p with
    | nil => exact absurd ha (by simp)
    | cons q qs => exact absurd h (by simp [containsSeq, startsWithB])
  | cons c cs ih =>
    intro h a ha
    rcases Bool.or_eq_true_iff.mp (by simpa [containsSeq] using h) with h2 | h2
    · obtain ⟨r, hr⟩ := (startsWithB_ex p (c :: cs)).mp h2
      rw [hr]
      exact List.mem_append_left r ha
    · exact List.mem_cons_of_mem c (ih h2 a ha)

theorem containsSeq_false_of_not_mem (p l : Str) (a : Char) (hap : a ∈ p)
    (ha : ¬ a ∈ l) : containsSeq p l = false := by
  cases h : containsSeq p l with
  | false => rfl
  | true => exact absurd (containsSeq_mem p l h a hap) ha

theorem hasbom_plain (s : Str) (hplain : ∀ c ∈ s, plainChar c = true) :
    hasbom s = false := by
  unfold hasbom
  cases s with
  | nil => rfl
  | cons c0 s1 =>
    have h0 := hplain c0 (List.mem_cons_self _ _)
    have hne : ¬ (charAt (c0 :: s1) 0 = Char.ofNat 0xEF) := by
      show ¬ (c0 = Char.ofNat 0xEF)
      intro he
      subst he
      simp [plainChar] at h0
    simp [hne]

set_option maxHeartbeats 4000000 in
theorem rl_plain_mem : ∀ (fuel : Nat) (ig ns : Bool) (nl : Nat) (s : Str),
    (∀ c ∈ s, plainChar c = true) →
    ∀ c ∈ readLoopF fuel ig ns nl s,
      c = ' ' ∨ c = '\n' ∨ (c ∈ s ∧ (isSpaceB c || isCntrlB c) = false) := by
  intro fuel
  induction fuel with
  | zero => intro ig ns nl s _ c hc; exact absurd hc (by simp [readLoopF])
  | succ n ih =>
    intro ig ns nl s hplain
    cases s with
    | nil => intro c hc; exact absurd hc (by simp [readLoopF])
    | cons ch0 rest =>
      have hch0 := hplain ch0 (List.mem_cons_self _ _)
      have hrest : ∀ c ∈ rest, plainChar c = true :=
        fun c hc => hplain c (List.mem_cons_of_mem _ hc)
      have hlt : decide (ch0.toNat < 128) = true := by
        simp only [plainChar, Bool.and_eq_true] at hch0
        simpa using hch0.2
      rw [readLoopF]
      dsimp only
      by_cases hcond : (ch0.toNat < 128 && ch0 ≠ '\n' && (isSpaceB ch0 || isCntrlB ch0)) = true
      · rw [if_pos hcond]
        repeat' split
        all_goals intro c hc
        all_goals try (
          simp only [List.mem_append, List.mem_cons, List.mem_replicate, List.not_mem_nil,
            false_or, or_false] at hc)
        all_goals repeat' (first
          | (obtain hc | hc := hc)
          | (obtain ⟨h9, hc⟩ := hc))
        all_goals first
          | exact absurd ‹(' ' : Char) = '\\'› (by decide)
          | exact Or.inl rfl
          | exact Or.inr (Or.inl rfl)
          | exact Or.inl hc
          | exact Or.inr (Or.inl hc)
          | (rcases ih _ _ _ _ hrest _ hc with h | h | h
             · exact Or.inl h
             · exact Or.inr (Or.inl h)
             · exact Or.inr (Or.inr ⟨List.mem_cons_of_mem _ h.1, h.2⟩))
          | (rcases ih _ _ _ _ (fun d hd => hrest d (List.mem_cons_of_mem _ hd)) _ hc
              with h | h | h
             · exact Or.inl h
             · exact Or.inr (Or.inl h)
             · exact Or.inr (Or.inr
                 ⟨List.mem_cons_of_mem _ (List.mem_cons_of_mem _ h.1), h.2⟩))
      · have hcf : (ch0.toNat < 128 && ch0 ≠ '\n' && (isSpaceB ch0 || isCntrlB ch0)) = false := by
          revert hcond
          cases (ch0.toNat < 128 && ch0 ≠ '\n' && (isSpaceB ch0 || isCntrlB ch0)) <;> simp
        rw [if_neg hcond]
        repeat' split
        all_goals intro c hc
        all_goals try (
          simp only [List.mem_append, List.mem_cons, List.mem_replicate, List.not_mem_nil,
            false_or, or_false] at hc)
        all_goals repeat' (first
          | (obtain hc | hc := hc)
          | (obtain ⟨h9, hc⟩ := hc))
        all_goals first
          | (have hbs : ch0 = '\\' := by assumption
             rw [hbs] at hch0
             exact absurd hch0 (by decide))
          | exact Or.inl rfl
          | exact Or.inr (Or.inl rfl)
          | exact Or.inl hc
          | exact Or.inr (Or.inl hc)
          | (by_cases hn : ch0 = '\n'
             · exact Or.inr (Or.inl hn)
             · refine Or.inr (Or.inr ⟨List.mem_cons_self _ _, ?_⟩)
               have hn2 : decide (ch0 ≠ '\n') = true := by simpa using hn
               simp only [hlt, hn2, Bool.true_and] at hcf
               exact hcf)
          | (rcases ih _ _ _ _ hrest _ hc with h | h | h
             · exact Or.inl h
             · exact Or.inr (Or.inl h)
             · exact Or.inr (Or.inr ⟨List.mem_cons_of_mem _ h.1, h.2⟩))
          | (rcases ih _ _ _ _ (fun d hd => hrest d (List.mem_cons_of_mem _ hd)) _ hc
              with h | h | h
             · exact Or.inl h
             · exact Or.inr (Or.inl h)
             · exact Or.inr (Or.inr
                 ⟨List.mem_cons_of_mem _ (List.mem_cons_of_mem _ h.1), h.2⟩))



set_option maxHeartbeats 4000000 in
theorem rl_plain_count : ∀ (fuel : Nat) (ig ns : Bool) (s : Str), s.length ≤ fuel →
    (∀ c ∈ s, plainChar c = true) →
    (readLoopF fuel ig ns 0 s).count '\n' = s.count '\n' := by
  intro fuel
  induction fuel with
  | zero =>
    intro ig ns s hlen _
    cases s with
    | nil => rfl
    | cons c cs => simp at hlen
  | succ n ih =>
    intro ig ns s hlen hplain
    cases s with
    | nil => rfl
    | cons ch0 rest =>
      have hch0 := hplain ch0 (List.mem_cons_self _ _)
      have hrest : ∀ c ∈ rest, plainChar c = true :=
        fun c hc => hplain c (List.mem_cons_of_mem _ hc)
      have hlen2 : rest.length ≤ n := by
        simp only [List.length_cons] at hlen
        omega
      rw [readLoopF]
      dsimp only
      by_cases hcond : (ch0.toNat < 128 && ch0 ≠ '\n' && (isSpaceB ch0 || isCntrlB ch0)) = true
      · have hne : ch0 ≠ '\n' := by
          simp only [Bool.and_eq_true, decide_eq_true_eq] at hcond
          exact hcond.1.2
        rw [if_pos hcond]
        simp only [show decide (0 > 0) = false from rfl, Bool.and_false, Bool.false_eq_true,
          if_false]
        repeat' split
        all_goals first
          | exact absurd ‹(' ' : Char) = '\\'› (by decide)
          | (simp [List.count_append, List.count_cons, hne,
              ih _ _ _ hlen2 hrest])
      · rw [if_neg hcond]
        simp only [show decide (0 > 0) = false from rfl, Bool.and_false, Bool.false_eq_true,
          if_false]
        repeat' split
        all_goals first
          | (have hbs : ch0 = '\\' := by assumption
             rw [hbs] at hch0
             exact absurd hch0 (by decide))
          | (have hsp : (decide (ch0 = ' ') && ig) = true := by assumption
             have hsp2 : ch0 = ' ' := by
               simpa using (Bool.and_eq_true_iff.mp hsp).1
             simp [List.count_cons, hsp2, ih _ _ _ hlen2 hrest])
          | (simp [List.count_append, List.count_cons, ih _ _ _ hlen2 hrest])



theorem sw_false_of_head_ne (a c : Char) (p cs : Str) (hne : ¬ a = c) :
    startsWithB (a :: p) (c :: cs) = false := by
  simp only [startsWithB]
  rw [decide_eq_false hne]
  rfl

theorem plainChar_facts (c : Char) (h : plainChar c = true) :
    c ≠ '\\' ∧ c ≠ '/' ∧ c ≠ '"' ∧ c ≠ '\'' ∧ c ≠ 'R' ∧ c ≠ '#' ∧ c.toNat < 128 := by
  simp only [plainChar, Bool.and_eq_true, Bool.not_eq_true', Bool.or_eq_false_iff,
    decide_eq_false_iff_not, decide_eq_true_eq] at h
  tauto

set_option maxHeartbeats 4000000 in
theorem rc_plain : ∀ (il : Bool) (fuel : Nat) (iAbs : Nat) (prev : Char) (supr : List Str)
    (s : Str), s.length < fuel → (∀ c ∈ s, plainChar c = true) →
    (rcLoop il fuel iAbs 0 prev supr s).1.count '\n' = s.count '\n' ∧
    ∀ c ∈ (rcLoop il fuel iAbs 0 prev supr s).1, c ∈ s := by
  intro il fuel
  induction fuel with
  | zero =>
    intro iAbs prev supr s hlen _
    exact absurd hlen (by omega)
  | succ n ih =>
    intro iAbs prev supr s hlen hplain
    cases s with
    | nil => exact ⟨rfl, by intro c hc; exact absurd hc (by simp [rcLoop])⟩
    | cons ch s1 =>
      have hch := plainChar_facts ch (hplain ch (List.mem_cons_self _ _))
      have hs1 : ∀ c ∈ s1, plainChar c = true :=
        fun c hc => hplain c (List.mem_cons_of_mem _ hc)
      have hlen2 : s1.length < n := by
        simp only [List.length_cons] at hlen
        omega
      rw [rcLoop]
      dsimp only
      have hsw1 : startsWithB (chars "#error") (ch :: s1) = false :=
        sw_false_of_head_ne _ _ _ _ (fun he => hch.2.2.2.2.2.1 he.symm)
      have hsw2 : startsWithB (chars "#warning") (ch :: s1) = false :=
        sw_false_of_head_ne _ _ _ _ (fun he => hch.2.2.2.2.2.1 he.symm)
      have hsw3 : startsWithB (chars "//") (ch :: s1) = false :=
        sw_false_of_head_ne _ _ _ _ (fun he => hch.2.1 he.symm)
      have hsw4 : startsWithB (chars "/*") (ch :: s1) = false :=
        sw_false_of_head_ne _ _ _ _ (fun he => hch.2.1 he.symm)
      have hsw5 : startsWithB (chars "R\"") (ch :: s1) = false :=
        sw_false_of_head_ne _ _ _ _ (fun he => hch.2.2.2.2.1 he.symm)
      have hq : (decide (ch = '"') || decide (ch = '\'')) = false := by
        rw [decide_eq_false hch.2.2.1, decide_eq_false hch.2.2.2.1]
        rfl
      simp only [hsw1, hsw2, hsw3, hsw4, hsw5, hq, Bool.or_false, Bool.false_eq_true,
        if_false, show decide (0 > 0) = false from rfl, Bool.and_false]
      repeat' split
      all_goals refine ⟨?_, ?_⟩
      all_goals first
        | (intro c hc
           simp only [List.nil_append, List.cons_append, List.mem_cons, List.not_mem_nil,
             false_or, or_false] at hc
           first
             | exact List.mem_cons_of_mem _ ((ih _ _ _ _ hlen2 hs1).2 c hc)
             | (rcases hc with rfl | hc
                · exact List.mem_cons_self _ _
                · exact List.mem_cons_of_mem _ ((ih _ _ _ _ hlen2 hs1).2 c hc)))
        | (have hsp : (decide (ch = ' ') && decide (prev = ' ')) = true := by assumption
           have hsp2 : ch = ' ' := by
             simpa using (Bool.and_eq_true_iff.mp hsp).1
           simp [List.count_cons, hsp2, (ih _ _ _ _ hlen2 hs1).1]
           done)
        | (simp [List.count_append, List.count_cons, (ih _ _ _ _ hlen2 hs1).1]
           done)



theorem rp_plain_id (str : Str) (hplain : ∀ c ∈ str, plainChar c = true) :
    Preprocessor.removeParantheses str = str := by
  have c1 : containsSeq (chars "\n#if") str = false :=
    containsSeq_false_of_not_mem _ _ '#' (by decide)
      (fun hmem => absurd (hplain '#' hmem) (by decide))
  have c2 : startsWithB (chars "#if") str = false := by
    cases h : startsWithB (chars "#if") str with
    | false => rfl
    | true =>
      obtain ⟨r, hr⟩ := (startsWithB_ex _ _).mp h
      have hmem : '#' ∈ str := by
        rw [hr]
        exact List.mem_append_left _ (by decide)
      exact absurd (hplain '#' hmem) (by decide)
  unfold Preprocessor.removeParantheses
  rw [c1, c2]
  rfl

/-- Claim C8 (as amended): for every input stream over the plain
fragment (no backslash, slash, quote, apostrophe, `R` or `#`, and only
bytes below 128), the text returned by `read` contains no tab and no
carriage return, its `\n` count equals the number of line endings of
the input (counting `\n`, lone `\r` and `\r\n` as one each), and it
contains no `//`, no `/*` and no backslash-newline splice. -/
theorem c8_read_plain (raw : Str) (hplain : ∀ c ∈ raw, plainChar c = true) :
    (∀ c ∈ (Preprocessor.read raw false).1, c ≠ '\t' ∧ c ≠ '\r') ∧
    (Preprocessor.read raw false).1.count '\n' = lineEndings raw ∧
    containsSeq (chars "//") ((Preprocessor.read raw false).1) = false ∧
    containsSeq (chars "/*") ((Preprocessor.read raw false).1) = false ∧
    containsSeq (chars "\\\n") ((Preprocessor.read raw false).1) = false := by
  have h0 : ∀ c ∈ readConv raw, plainChar c = true := by
    intro c hc
    rcases readConv_mem raw c hc with rfl | h
    · decide
    · exact hplain c h
  have h1mem := rl_plain_mem (readConv raw).length true false 0 (readConv raw) h0
  have h1plain : ∀ c ∈ readLoop true false 0 (readConv raw), plainChar c = true := by
    intro c hc
    rcases h1mem c hc with rfl | rfl | h
    · decide
    · decide
    · exact h0 c h.1
  have h1count : (readLoop true false 0 (readConv raw)).count '\n' =
      (readConv raw).count '\n' :=
    rl_plain_count _ true false _ (le_refl _) h0
  have hbom := hasbom_plain _ h1plain
  have hrc := rc_plain false ((readLoop true false 0 (readConv raw)).length + 1) 0
    (Char.ofNat 0) [] (readLoop true false 0 (readConv raw)) (by omega) h1plain
  have hrceq : Preprocessor.removeComments false (readLoop true false 0 (readConv raw)) =
      rcLoop false ((readLoop true false 0 (readConv raw)).length + 1) 0 0 (Char.ofNat 0) []
        (readLoop true false 0 (readConv raw)) := by
    unfold Preprocessor.removeComments
    rw [hbom]
    simp
  have hout : ∀ c ∈ (rcLoop false ((readLoop true false 0 (readConv raw)).length + 1) 0 0
      (Char.ofNat 0) [] (readLoop true false 0 (readConv raw))).1, plainChar c = true :=
    fun c hc => h1plain c (hrc.2 c hc)
  have hread : (Preprocessor.read raw false).1 =
      (rcLoop false ((readLoop true false 0 (readConv raw)).length + 1) 0 0 (Char.ofNat 0) []
        (readLoop true false 0 (readConv raw))).1 := by
    unfold Preprocessor.read
    dsimp only
    rw [hrceq]
    exact rp_plain_id _ hout
  rw [hread]
  refine ⟨?_, ?_, ?_, ?_, ?_⟩
  · intro c hc
    have hm := hrc.2 c hc
    rcases h1mem c hm with rfl | rfl | h
    · exact ⟨by decide, by decide⟩
    · exact ⟨by decide, by decide⟩
    · constructor
      · intro he
        subst he
        exact absurd h.2 (by decide)
      · intro he
        subst he
        exact absurd h.2 (by decide)
  · rw [hrc.1, h1count, readConv_count]
  · exact containsSeq_false_of_not_mem _ _ '/' (by decide)
      (fun hmem => absurd (h1plain '/' (hrc.2 _ hmem)) (by decide))
  · exact containsSeq_false_of_not_mem _ _ '/' (by decide)
      (fun hmem => absurd (h1plain '/' (hrc.2 _ hmem)) (by decide))
  · exact containsSeq_false_of_not_mem _ _ '\\' (by decide)
      (fun hmem => absurd (h1plain '\\' (hrc.2 _ hmem)) (by decide))

/-- Witness for claim C8 (as amended) at a concrete input. -/
theorem c8_read_plain_witness :
    (∀ c ∈ chars "ab\ncd\n", plainChar c = true) ∧
    (Preprocessor.read (chars "ab\ncd\n") false).1.count '\n' =
      lineEndings (chars "ab\ncd\n") :=
  ⟨by decide, (c8_read_plain (chars "ab\ncd\n") (by decide)).2.1⟩

end Cppcheck
